import Mathlib

/-!
# Arbitrary-length integers (`bigint.hpp`)

A shallow embedding of the functions of `src/bigint.hpp` and theorems about them.

Conventions of the embedding

* `vector<bool>` is `List Bool`, index `0` first (the most significant bit).
* `string` is `List Char`.
* `int8_t` digit values are `Nat` (every call site passes a value in `0..19`).
* `size_t` is `Nat`; a vector is shorter than `2^64`, so the only wrap-arounds
  that can happen are a subtraction whose result would be negative and the
  increment of `2^64 - 1`; both are modelled (`size_t_sub`, `size_t_succ`).
* `int64_t` is `ℤ`, wrapped to two's complement by `wrap_int64`.
* An exception is `Except.error`; reading a vector past its end (undefined
  behaviour in C++) is reported as `Error.out_of_bounds`.
* The only unbounded loop (`while (true)` in `consume_str_to_bools`) takes a
  step budget; `none` means the budget ran out.
-/

namespace Bigint

/-- The failures of the program. -/
inductive Error where
  /-- Thrown `std::domain_error`. -/
  | domain_error
  /-- Thrown `std::out_of_range`. -/
  | out_of_range
  /-- A read past the end of a vector (undefined behaviour). -/
  | out_of_bounds
  deriving DecidableEq, Repr

deriving instance DecidableEq for Except

/-! ## Machine arithmetic -/

/-- The subtraction `a - b` of two `size_t` values below `2^64`. -/
def size_t_sub (a b : Nat) : Nat :=
  if b ≤ a then a - b else 2 ^ 64 - (b - a)

/-- The increment `a + 1` of a `size_t` value. -/
def size_t_succ (a : Nat) : Nat :=
  if a = 2 ^ 64 - 1 then 0 else a + 1

/-- Reduction of an integer to the range of `int64_t` (two's complement). -/
def wrap_int64 (x : ℤ) : ℤ :=
  (x + 2 ^ 63) % 2 ^ 64 - 2 ^ 63

/-- The cast `unsigned(x)` of an `int64_t` to a 32-bit unsigned integer. -/
def to_unsigned (x : ℤ) : Nat :=
  (x % 2 ^ 32).toNat

/-! ## Digit codec -/

/-- `char_to_int`: the value of a decimal digit character. -/
def char_to_int (a : Char) : Except Error Nat :=
  if a.toNat < 48 ∨ a.toNat > 57 then
    .error .domain_error
  else
    .ok (a.toNat - 48)

/-- `dig_to_char`: the character of a digit value. -/
def dig_to_char (a : Nat) : Except Error Char :=
  if a > 9 then
    .error .domain_error
  else
    .ok (Char.ofNat (a + 48))

/-- Recursion of `int64_t_pow_2` on the number of remaining calls. -/
def int64_t_pow_2_rec : Nat → ℤ
  | 0 => 1
  | n + 1 => wrap_int64 (2 * int64_t_pow_2_rec n)

/-- `int64_t_pow_2`: `1` when `a_pow < 1`, else twice the value at `a_pow - 1`. -/
def int64_t_pow_2 (a_pow : ℤ) : ℤ :=
  int64_t_pow_2_rec a_pow.toNat

/-- `std::to_string` of an `int64_t`. -/
def to_string (x : ℤ) : List Char :=
  if x < 0 then '-' :: Nat.toDigits 10 x.natAbs else Nat.toDigits 10 x.toNat

/-! ## Decimal big-addition helper -/

/-- The loop of `sum_strs`, from the last character to the first: the two
arguments are the reversed longer and shorter strings, the result is the
sequence of pushed characters. -/
def sum_strs_loop : List Char → List Char → Bool → Except Error (List Char)
  | [], _, carry => .ok (if carry then ['1'] else [])
  | longer_chr :: longer_rest, shorter, carry => do
    let shorter_chr := shorter.headD '0'
    let longer_dig ← char_to_int longer_chr
    let shorter_dig ← char_to_int shorter_chr
    let sum_of_digs := longer_dig + shorter_dig + (if carry then 1 else 0)
    if sum_of_digs ≥ 10 then
      let c ← dig_to_char (sum_of_digs - 10)
      let rest ← sum_strs_loop longer_rest shorter.tail true
      pure (c :: rest)
    else
      let c ← dig_to_char sum_of_digs
      let rest ← sum_strs_loop longer_rest shorter.tail false
      pure (c :: rest)

/-- `sum_strs`: column addition of two strings of digits. -/
def sum_strs (a_s1 a_s2 : List Char) : Except Error (List Char) := do
  let longer_str := if a_s1.length > a_s2.length then a_s1 else a_s2
  let shorter_str := if a_s1.length > a_s2.length then a_s2 else a_s1
  let result ← sum_strs_loop longer_str.reverse shorter_str.reverse false
  pure result.reverse

/-! ## Magnitude to decimal string -/

/-- The inner loop of `bin_to_string`: `sum_strs(result, addend)` repeated `n` times. -/
def repeat_sum_strs (addend : List Char) : Nat → List Char → Except Error (List Char)
  | 0, result => .ok result
  | n + 1, result => do
    let r ← sum_strs result addend
    repeat_sum_strs addend n r

/-- The state of the loop of `bin_to_string`. -/
structure BinToStringState where
  /-- The decimal string built so far. -/
  result : List Char
  /-- The native accumulator. -/
  accu : ℤ
  /-- Whether the accumulator was written to `result`. -/
  deposited : Bool
  deriving DecidableEq, Repr

/-- One iteration of the loop of `bin_to_string`, for the bit `bit` of
significance `current_significance`. -/
def bin_to_string_step (st : BinToStringState) (bit : Bool) (current_significance : Nat) :
    Except Error BinToStringState :=
  let int64_t_len : Nat := 8 * 8 - 2
  if current_significance ≤ int64_t_len then
    if bit = true then
      .ok { st with accu := wrap_int64 (st.accu + int64_t_pow_2 current_significance) }
    else
      .ok st
  else
    let st1 : BinToStringState :=
      if !st.deposited then { st with result := to_string st.accu, deposited := true } else st
    if bit = true then do
      let r ← repeat_sum_strs (to_string (int64_t_pow_2 int64_t_len))
        (to_unsigned (int64_t_pow_2 ((current_significance : ℤ) - (int64_t_len : ℤ)))) st1.result
      pure { st1 with result := r }
    else
      .ok st1

/-- The loop of `bin_to_string` over the bits from the last to the first. -/
def bin_to_string_loop : List Bool → Nat → BinToStringState → Except Error BinToStringState
  | [], _, st => .ok st
  | bit :: rest, current_significance, st => do
    let st1 ← bin_to_string_step st bit current_significance
    bin_to_string_loop rest (current_significance + 1) st1

/-- `bin_to_string`: the decimal string of a vector of bits. -/
def bin_to_string (a_bools : List Bool) : Except Error (List Char) := do
  let st ← bin_to_string_loop a_bools.reverse 0 { result := [], accu := 0, deposited := false }
  if !st.deposited then
    pure (to_string st.accu)
  else
    pure st.result

/-! ## Magnitude primitives -/

/-- The loop of `can_divide`: `a_dvd` from index `a_dvd_offset` on against `a_dvs`. -/
def can_divide_loop : List Bool → List Bool → Except Error Bool
  | _, [] => .ok true
  | [], _ :: _ => .error .out_of_bounds
  | d :: dvd, s :: dvs =>
    if d = true ∧ s = false then .ok true
    else if d = false ∧ s = true then .ok false
    else can_divide_loop dvd dvs

/-- `can_divide`: whether the divisor fits into the dividend at the offset. -/
def can_divide (a_dvd a_dvs : List Bool) (a_dvd_offset : Nat) : Except Error Bool :=
  if a_dvd_offset ≥ 1 then
    match a_dvd[a_dvd_offset - 1]? with
    | none => .error .out_of_bounds
    | some true => .ok true
    | some false => can_divide_loop (a_dvd.drop a_dvd_offset) a_dvs
  else
    can_divide_loop (a_dvd.drop a_dvd_offset) a_dvs

/-- The loop of `is_the_first_bigger` over two vectors of the same size. -/
def is_the_first_bigger_loop : List Bool → List Bool → Bool
  | x :: xs, y :: ys =>
    if x = true ∧ y = false then true
    else if x = false ∧ y = true then false
    else is_the_first_bigger_loop xs ys
  | _, _ => false

/-- The `while` loops of `is_the_first_bigger`: `pop_back` as long as the
last bit is `0`. -/
def pop_back_zeros (opr : List Bool) : List Bool :=
  (opr.reverse.dropWhile (fun bol => !bol)).reverse

/-- `is_the_first_bigger`: the sizes are compared first; equal sizes are
compared bit by bit from index `0`. The copies `opr_1` and `opr_2` are
trimmed at the back and then never read: the comparison is made on the
arguments. -/
def is_the_first_bigger (a_opr_1 a_opr_2 : List Bool) : Bool :=
  let _opr_1 := pop_back_zeros a_opr_1
  let _opr_2 := pop_back_zeros a_opr_2
  if a_opr_1.length ≠ a_opr_2.length then
    decide (a_opr_1.length > a_opr_2.length)
  else
    is_the_first_bigger_loop a_opr_1 a_opr_2

/-- The loop of `sub_bool_vectors`, from the last processed index to index
`0`: the arguments are the reversed processed part of `opr_longer`, the
reversed `opr_shorter` (a missing bit reads as `0`) and the borrow; the
result is the reversed sequence of written bits. -/
def sub_loop : List Bool → List Bool → Bool → List Bool
  | [], _, _ => []
  | x :: xs, ys, borrow =>
    let y := ys.headD false
    if x = true ∧ y = true then
      if borrow then true :: sub_loop xs ys.tail true
      else false :: sub_loop xs ys.tail false
    else if x = true ∧ y = false then
      if borrow then false :: sub_loop xs ys.tail false
      else true :: sub_loop xs ys.tail false
    else if x = false ∧ y = true then
      if borrow then false :: sub_loop xs ys.tail true
      else true :: sub_loop xs ys.tail true
    else
      if borrow then true :: sub_loop xs ys.tail true
      else false :: sub_loop xs ys.tail false

/-- `sub_bool_vectors`: the last `offset` bits of `opr_longer` are kept, the
bits before them are rewritten by the borrow loop. -/
def sub_bool_vectors (a_opr_1 a_opr_2 : List Bool) (offset : Nat) : Except Error (List Bool) :=
  let opr_1_is_bigger := is_the_first_bigger a_opr_1 a_opr_2
  let opr_longer := if opr_1_is_bigger then a_opr_1 else a_opr_2
  let opr_shorter := if opr_1_is_bigger then a_opr_2 else a_opr_1
  let len_dif := size_t_sub opr_longer.length opr_shorter.length
  if len_dif < offset then
    .error .out_of_range
  else
    let rev := opr_longer.reverse
    .ok (rev.take offset ++ sub_loop (rev.drop offset) opr_shorter.reverse false).reverse

/-- `is_zero_vector`: no bit is set. -/
def is_zero_vector (a_vec : List Bool) : Bool :=
  a_vec.all (fun bol => !bol)

/-- The `for` loop of `div_bool_vectors_bare`: `count` iterations are left
and the loop variable is `i`. -/
def div_loop (a_dvs : List Bool) (len_dvd len_dvs : Nat) :
    Nat → Nat → List Bool → List Bool → Except Error (List Bool × List Bool)
  | 0, _, dvd_copy, result => .ok (result, dvd_copy)
  | count + 1, i, dvd_copy, result => do
    if (← can_divide dvd_copy a_dvs i) then
      let tmp ← sub_bool_vectors dvd_copy a_dvs (size_t_sub len_dvd (i + len_dvs))
      div_loop a_dvs len_dvd len_dvs count (i + 1) tmp (result ++ [true])
    else
      div_loop a_dvs len_dvd len_dvs count (i + 1) dvd_copy (result ++ [false])

/-- `div_bool_vectors_bare`: `result` and `rem` are the vectors passed by
reference; the pair returned is their final content. -/
def div_bool_vectors_bare (a_dvd a_dvs result rem : List Bool) :
    Except Error (List Bool × List Bool) :=
  let result1 := if !is_the_first_bigger a_dvd a_dvs then [] else result
  let _rem1 := if !is_the_first_bigger a_dvd a_dvs then a_dvd else rem
  if is_zero_vector a_dvs then
    .error .domain_error
  else
    let len_dvd := a_dvd.length
    let len_dvs := a_dvs.length
    let len_dif := size_t_sub len_dvd len_dvs
    div_loop a_dvs len_dvd len_dvs (size_t_succ len_dif) 0 a_dvd result1

/-- `div_bool_vectors`: the quotient of `div_bool_vectors_bare`. -/
def div_bool_vectors (a_dvd a_dvs : List Bool) : Except Error (List Bool) := do
  let (result, _) ← div_bool_vectors_bare a_dvd a_dvs [] []
  pure result

/-- The loop of `add_bool_vectors`, from the last index to index `0`: the
arguments are the reversed `opr_longer`, the reversed `opr_shorter` (a missing
bit reads as `0`) and the carry; the result is the sequence of pushed bits. -/
def add_loop : List Bool → List Bool → Bool → List Bool
  | [], _, carry => if carry then [true] else []
  | x :: xs, ys, carry =>
    let y := ys.headD false
    if x = true ∧ y = true then
      (if carry then true else false) :: add_loop xs ys.tail true
    else if (x = true ∧ y = false) ∨ (x = false ∧ y = true) then
      if carry then false :: add_loop xs ys.tail true
      else true :: add_loop xs ys.tail false
    else
      (if carry then true else false) :: add_loop xs ys.tail false

/-- `add_bool_vectors`: ripple-carry addition. -/
def add_bool_vectors (a_opr_1 a_opr_2 : List Bool) : List Bool :=
  let opr_1_is_bigger := is_the_first_bigger a_opr_1 a_opr_2
  let opr_longer := if opr_1_is_bigger then a_opr_1 else a_opr_2
  let opr_shorter := if opr_1_is_bigger then a_opr_2 else a_opr_1
  (add_loop opr_longer.reverse opr_shorter.reverse false).reverse

/-- The loop of `mul_bool_vectors` over the multiplier from its last bit. -/
def mul_loop : List Bool → List Bool → List Bool → List Bool
  | [], result, _ => result
  | m :: ms, result, addrant =>
    mul_loop ms (if m then add_bool_vectors result addrant else result) (addrant ++ [false])

/-- `mul_bool_vectors`: shift-and-add multiplication. -/
def mul_bool_vectors (a_mnd a_mer : List Bool) : List Bool :=
  mul_loop a_mer.reverse [false] a_mnd

/-! ## The class `Int` -/

/-- The class `Int`: a sign flag and a magnitude. -/
structure Int where
  /-- The sign flag. -/
  is_positive : Bool
  /-- The magnitude, most significant bit first. -/
  bools : List Bool
  deriving DecidableEq, Repr

/-- The loop of `to_str_bools` over the bits. -/
def to_str_bools_loop : List Bool → Bool → List Char
  | [], _ => []
  | bol :: rest, is_1_met =>
    if bol ∨ is_1_met then
      (if bol then '1' else '0') :: to_str_bools_loop rest true
    else
      to_str_bools_loop rest is_1_met

/-- `Int::to_str_bools`. -/
def Int.to_str_bools (self : Int) : List Char :=
  if is_zero_vector self.bools then ['0']
  else (if self.is_positive then [] else ['-']) ++ to_str_bools_loop self.bools false

/-- `Int::to_str`. -/
def Int.to_str (self : Int) : Except Error (List Char) :=
  if is_zero_vector self.bools then .ok ['0']
  else do
    let s ← bin_to_string self.bools
    pure ((if self.is_positive then [] else ['-']) ++ s)

/-- One pass of the `for` loop of `consume_str_to_bools` over `dvd`: every
digit is halved in place; the pass stops at a null character. -/
def halve_pass : List Char → Bool → Except Error (List Char × Bool)
  | [], carry => .ok ([], carry)
  | chr :: rest, carry =>
    if chr = Char.ofNat 0 then
      .ok (chr :: rest, carry)
    else do
      let digit ← char_to_int chr
      let carry_old := carry
      let carry1 := if digit % 2 = 0 then false else true
      let divide_me := digit + (if carry_old then 10 else 0)
      let c ← dig_to_char (divide_me / 2)
      let (rest1, carry2) ← halve_pass rest carry1
      pure (c :: rest1, carry2)

/-- The `while (true)` loop of `consume_str_to_bools` with a budget of
passes; `none` when the budget is used up. -/
def consume_loop : Nat → List Char → List Bool → Option (Except Error (List Bool))
  | 0, _, _ => none
  | fuel + 1, dvd, bools =>
    match halve_pass dvd false with
    | .error e => some (.error e)
    | .ok (dvd1, carry) =>
      let bools1 := bools ++ [carry]
      if dvd1.head? = some '0' then
        let dvd2 := dvd1.tail
        if dvd2.isEmpty then some (.ok bools1.reverse)
        else consume_loop fuel dvd2 bools1
      else
        consume_loop fuel dvd1 bools1

/-- `Int::consume_str_to_bools`, started on the magnitude `bools`. -/
def consume_str_to_bools (fuel : Nat) (a_dvd : List Char) (bools : List Bool) :
    Option (Except Error (List Bool)) :=
  if a_dvd.length = 0 then
    some (.ok (bools ++ [false]))
  else
    consume_loop fuel a_dvd bools

/-- The constructor `Int::Int(const string &)`. -/
def Int.ofString (fuel : Nat) (a_in : List Char) : Option (Except Error Int) :=
  let is_positive := a_in.headD (Char.ofNat 0) != '-'
  let body := a_in.drop (if is_positive then 0 else 1)
  let body1 := body.dropWhile (fun c => c == '0')
  match consume_str_to_bools fuel body1 [] with
  | none => none
  | some (.error e) => some (.error e)
  | some (.ok bools) => some (.ok { is_positive := is_positive, bools := bools })

/-- `Int::operator+`. -/
def Int.add (self a_that : Int) : Except Error Int := do
  let my_bools_is_bigger := is_the_first_bigger self.bools a_that.bools
  if self.is_positive ≠ a_that.is_positive then
    let result_bools ← sub_bool_vectors self.bools a_that.bools 0
    let result_is_positive := if my_bools_is_bigger then self.is_positive else a_that.is_positive
    pure { is_positive := result_is_positive, bools := result_bools }
  else
    let result_bools := add_bool_vectors self.bools a_that.bools
    pure { is_positive := self.is_positive, bools := result_bools }

/-- `Int::operator-` (binary). -/
def Int.sub (self a_that : Int) : Except Error Int :=
  let neg_that : Int := { a_that with is_positive := !a_that.is_positive }
  Int.add self neg_that

/-- `Int::operator*`. -/
def Int.mul (self a_that : Int) : Int :=
  { is_positive := self.is_positive == a_that.is_positive,
    bools := mul_bool_vectors self.bools a_that.bools }

/-- `Int::operator/`. -/
def Int.div (self a_that : Int) : Except Error Int := do
  let result_is_positive := self.is_positive == a_that.is_positive
  let result_bools ← div_bool_vectors self.bools a_that.bools
  pure { is_positive := result_is_positive, bools := result_bools }

/-- `Int::operator==`. -/
def Int.eq (self a_that : Int) : Bool :=
  if is_zero_vector self.bools ∧ is_zero_vector a_that.bools then true
  else decide (self.bools = a_that.bools) && decide (self.is_positive = a_that.is_positive)

/-- `Int::operator>`. -/
def Int.gt (self a_that : Int) : Bool :=
  if is_zero_vector self.bools ∧ is_zero_vector a_that.bools then false
  else if self.is_positive ∧ ¬ a_that.is_positive then true
  else if ¬ self.is_positive ∧ a_that.is_positive then false
  else !is_the_first_bigger a_that.bools self.bools

/-- `Int::operator<`. -/
def Int.lt (self a_that : Int) : Bool :=
  Int.gt a_that self

/-- `Int::operator-` (unary). -/
def Int.neg (self : Int) : Int :=
  { self with is_positive := !self.is_positive }

/-- The copy constructor `Int::Int(const Int &)`. -/
def Int.copy (a_int : Int) : Int :=
  { is_positive := a_int.is_positive, bools := a_int.bools }

/-- `Int::operator=`: the object after the call, and the value returned. The
body returns `Int(a_opr_2)` and writes no member of the object. -/
def Int.assign (self a_opr_2 : Int) : Int × Int :=
  (self, Int.copy a_opr_2)

/-! ## Vocabulary of the statements -/

/-- The number denoted by a magnitude, most significant bit first. -/
def value (bools : List Bool) : Nat :=
  bools.foldl (fun acc b => 2 * acc + b.toNat) 0

/-- The number denoted by a reversed magnitude, least significant bit first. -/
def value_rev : List Bool → Nat
  | [] => 0
  | b :: bs => b.toNat + 2 * value_rev bs

/-- The integer denoted by an `Int`. -/
def Int.toInt (a : Int) : ℤ :=
  if a.is_positive then (value a.bools : ℤ) else -(value a.bools : ℤ)

/-- A magnitude without redundant leading zero bits: the single bit `0`, or a
sequence that starts with the bit `1`. -/
def canonical (l : List Bool) : Prop :=
  l = [false] ∨ l.head? = some true

/-- A decimal digit character. -/
def is_digit (c : Char) : Bool :=
  decide (48 ≤ c.toNat) && decide (c.toNat ≤ 57)

/-- The number denoted by a string of decimal digits. -/
def decimal_value (s : List Char) : Nat :=
  s.foldl (fun acc c => 10 * acc + (c.toNat - 48)) 0

/-- The digits of an input string: the text after an optional leading `-`. -/
def digits_of (s : List Char) : List Char :=
  if s.head? = some '-' then s.tail else s

/-- A decimal string: an optional `-` followed by one or more decimal digits. -/
def is_decimal (s : List Char) : Bool :=
  !(digits_of s).isEmpty && (digits_of s).all is_digit

/-- The binary representation of a number, most significant bit first; the
single bit `0` for zero. -/
def to_bits (n : Nat) : List Bool :=
  if n = 0 then [false] else (Nat.bits n).reverse

/-- The character of a bit. -/
def bit_char (b : Bool) : Char :=
  if b then '1' else '0'

/-- The binary numeral of an integer: `-` for a negative number, then the
binary digits of the absolute value without leading zeros. -/
def binary_numeral (z : ℤ) : List Char :=
  if z < 0 then '-' :: Nat.toDigits 2 z.natAbs else Nat.toDigits 2 z.natAbs

/-- The integer denoted by a decimal string. -/
def decimal_int (s : List Char) : ℤ :=
  if s.head? = some '-' then -(decimal_value (digits_of s) : ℤ)
  else (decimal_value (digits_of s) : ℤ)

/-- The values the constructor returns on decimal strings. -/
def FromDecimal (a : Int) : Prop :=
  ∃ (s : List Char) (fuel : Nat), is_decimal s = true ∧ Int.ofString fuel s = some (.ok a)

/-- The number denoted by a reversed string of decimal digits, least
significant digit first. -/
def decimal_value_rev : List Char → Nat
  | [] => 0
  | c :: cs => (c.toNat - 48) + 10 * decimal_value_rev cs

/-- The string `s` is the decimal numeral of `n`: one or more decimal digits
that denote `n`, without a leading zero unless `s` is the single digit `0`. -/
def is_numeral (s : List Char) (n : Nat) : Prop :=
  s ≠ [] ∧ (∀ x ∈ s, is_digit x = true) ∧ (s.head? = some '0' → s = ['0']) ∧
    decimal_value s = n

/-! ## Denotations -/

theorem value_append_singleton (l : List Bool) (b : Bool) :
    value (l ++ [b]) = 2 * value l + b.toNat := by
  simp [value, List.foldl_append]

theorem value_reverse (l : List Bool) : value l.reverse = value_rev l := by
  induction l with
  | nil => rfl
  | cons b bs ih =>
    rw [List.reverse_cons, value_append_singleton, ih, value_rev]
    omega

theorem value_eq_value_rev (l : List Bool) : value l = value_rev l.reverse := by
  rw [← value_reverse, List.reverse_reverse]

theorem value_rev_append (xs ys : List Bool) :
    value_rev (xs ++ ys) = value_rev xs + 2 ^ xs.length * value_rev ys := by
  induction xs with
  | nil => simp [value_rev]
  | cons b bs ih =>
    rw [List.cons_append, value_rev, ih, value_rev, List.length_cons, pow_succ]
    ring

theorem value_rev_lt (l : List Bool) : value_rev l < 2 ^ l.length := by
  induction l with
  | nil => simp [value_rev]
  | cons b bs ih =>
    simp only [value_rev, List.length_cons, pow_succ]
    cases b <;> simp <;> omega

theorem value_lt (l : List Bool) : value l < 2 ^ l.length := by
  rw [value_eq_value_rev]
  simpa using value_rev_lt l.reverse

theorem value_cons (b : Bool) (l : List Bool) :
    value (b :: l) = b.toNat * 2 ^ l.length + value l := by
  rw [value_eq_value_rev, List.reverse_cons, value_rev_append, value_eq_value_rev l]
  simp [value_rev]
  ring

theorem value_append (xs ys : List Bool) :
    value (xs ++ ys) = value xs * 2 ^ ys.length + value ys := by
  rw [value_eq_value_rev, List.reverse_append, value_rev_append, value_eq_value_rev xs,
    value_eq_value_rev ys]
  simp
  ring

/-! ## Which operand is taken as the longer one -/

theorem shorter_length_le (a b : List Bool) :
    (if is_the_first_bigger a b then b else a).length ≤
      (if is_the_first_bigger a b then a else b).length := by
  unfold is_the_first_bigger
  by_cases h : a.length = b.length
  · simp only [h, ne_eq, not_true_eq_false, if_false]
    split <;> simp [h]
  · simp only [ne_eq, h, not_false_eq_true, if_true]
    by_cases h2 : a.length > b.length
    · simp [h2]; omega
    · simp [h2]; omega

/-! ## Addition -/

theorem add_loop_value : ∀ (xs ys : List Bool) (c : Bool), ys.length ≤ xs.length →
    value_rev (add_loop xs ys c) = value_rev xs + value_rev ys + c.toNat := by
  intro xs
  induction xs with
  | nil =>
    intro ys c h
    have : ys = [] := List.length_eq_zero.mp (Nat.le_zero.mp h)
    subst this
    cases c <;> simp [add_loop, value_rev]
  | cons x xs ih =>
    intro ys c h
    cases ys with
    | nil =>
      cases x <;> cases c <;> simp [add_loop, value_rev, ih [] _ (Nat.zero_le _)] <;> omega
    | cons y ys =>
      have hl : ys.length ≤ xs.length := by simpa using h
      cases x <;> cases y <;> cases c <;> simp [add_loop, value_rev, ih ys _ hl] <;> omega

theorem add_bool_vectors_value (a b : List Bool) :
    value (add_bool_vectors a b) = value a + value b := by
  unfold add_bool_vectors
  simp only [value_reverse]
  rw [add_loop_value _ _ _ (by simpa using shorter_length_le a b)]
  simp only [value_reverse, ← value_eq_value_rev]
  cases is_the_first_bigger a b <;> simp
  omega

/-! ## Multiplication -/

theorem mul_loop_value : ∀ (ms result addrant : List Bool),
    value (mul_loop ms result addrant) = value result + value addrant * value_rev ms := by
  intro ms
  induction ms with
  | nil => intro r a; simp [mul_loop, value_rev]
  | cons m ms ih =>
    intro r a
    rw [mul_loop, ih, value_append_singleton]
    cases m
    · simp [value_rev]; ring
    · simp [value_rev, add_bool_vectors_value]; ring

theorem mul_bool_vectors_value (a b : List Bool) :
    value (mul_bool_vectors a b) = value a * value b := by
  unfold mul_bool_vectors
  rw [mul_loop_value, value_eq_value_rev b]
  simp [value]

/-! ## Comparison -/

theorem is_the_first_bigger_loop_iff : ∀ (a b : List Bool), a.length = b.length →
    (is_the_first_bigger_loop a b = true ↔ value b < value a) := by
  intro a
  induction a with
  | nil =>
    intro b h
    have : b = [] := List.length_eq_zero.mp h.symm
    subst this
    simp [is_the_first_bigger_loop, value]
  | cons x xs ih =>
    intro b h
    cases b with
    | nil => simp at h
    | cons y ys =>
      have hl : xs.length = ys.length := by simpa using h
      have hx := value_lt xs
      have hy := value_lt ys
      rw [hl] at hx
      rw [is_the_first_bigger_loop, value_cons, value_cons, hl]
      cases x <;> cases y <;> simp [ih ys hl] <;> omega

theorem value_ge_of_head (l : List Bool) (h : l.head? = some true) :
    2 ^ (l.length - 1) ≤ value l := by
  cases l with
  | nil => simp at h
  | cons x xs =>
    simp at h
    subst h
    rw [value_cons]
    simp

theorem is_the_first_bigger_iff (a b : List Bool) (ha : canonical a) (hb : canonical b) :
    (is_the_first_bigger a b = true ↔ value b < value a) := by
  unfold is_the_first_bigger
  by_cases h : a.length = b.length
  · simp only [h, ne_eq, not_true_eq_false, if_false]
    exact is_the_first_bigger_loop_iff a b h
  · simp only [ne_eq, h, not_false_eq_true, if_true, decide_eq_true_eq]
    have hal := value_lt a
    have hbl := value_lt b
    rcases ha with ha | ha <;> rcases hb with hb | hb
    · subst ha; subst hb; simp at h
    · subst ha
      have hb2 := value_ge_of_head b hb
      have : 1 ≤ b.length := by
        cases b with
        | nil => simp at hb
        | cons y ys => simp
      have h2 : 2 ≤ b.length := by simp at h; omega
      have : 2 ^ 1 ≤ 2 ^ (b.length - 1) := Nat.pow_le_pow_right (by norm_num) (by omega)
      have hv : value [false] = 0 := rfl
      have hlen : [false].length = 1 := rfl
      rw [hv, hlen]
      constructor <;> intro _ <;> omega
    · subst hb
      have ha2 := value_ge_of_head a ha
      have : 1 ≤ a.length := by
        cases a with
        | nil => simp at ha
        | cons y ys => simp
      have h2 : 2 ≤ a.length := by simp at h; omega
      have : 2 ^ 1 ≤ 2 ^ (a.length - 1) := Nat.pow_le_pow_right (by norm_num) (by omega)
      have hv : value [false] = 0 := rfl
      have hlen : [false].length = 1 := rfl
      rw [hv, hlen]
      constructor <;> intro _ <;> omega
    · have ha2 := value_ge_of_head a ha
      have hb2 := value_ge_of_head b hb
      constructor
      · intro hgt
        have : 2 ^ b.length ≤ 2 ^ (a.length - 1) := Nat.pow_le_pow_right (by norm_num) (by omega)
        omega
      · intro hlt
        by_contra hng
        have : 2 ^ a.length ≤ 2 ^ (b.length - 1) := Nat.pow_le_pow_right (by norm_num) (by omega)
        omega

/-! ## Subtraction -/

theorem sub_loop_length : ∀ (xs ys : List Bool) (b : Bool),
    (sub_loop xs ys b).length = xs.length := by
  intro xs
  induction xs with
  | nil => intro ys b; simp [sub_loop]
  | cons x xs ih =>
    intro ys b
    simp only [sub_loop]
    generalize ys.headD false = y
    cases x <;> cases y <;> cases b <;> simp [ih]

theorem sub_loop_value : ∀ (xs ys : List Bool) (b : Bool), ys.length ≤ xs.length →
    value_rev ys + b.toNat ≤ value_rev xs →
    value_rev (sub_loop xs ys b) + value_rev ys + b.toNat = value_rev xs := by
  intro xs
  induction xs with
  | nil =>
    intro ys b h hv
    have : ys = [] := List.length_eq_zero.mp (Nat.le_zero.mp h)
    subst this
    cases b <;> simp_all [sub_loop, value_rev]
  | cons x xs ih =>
    intro ys b h hv
    cases ys with
    | nil =>
      have h1 := ih [] true (Nat.zero_le _)
      have h2 := ih [] false (Nat.zero_le _)
      cases x <;> cases b <;> simp [sub_loop, value_rev] at * <;> omega
    | cons y ys =>
      have hl : ys.length ≤ xs.length := by simpa using h
      have h1 := ih ys true hl
      have h2 := ih ys false hl
      cases x <;> cases y <;> cases b <;> simp [sub_loop, value_rev] at * <;> omega

theorem sub_bool_vectors_zero (a b : List Bool) :
    sub_bool_vectors a b 0 =
      .ok (sub_loop (if is_the_first_bigger a b then a else b).reverse
        (if is_the_first_bigger a b then b else a).reverse false).reverse := by
  simp [sub_bool_vectors]

theorem sub_bool_vectors_value (a b r : List Bool) (h : sub_bool_vectors a b 0 = .ok r)
    (hle : value (if is_the_first_bigger a b then b else a) ≤
      value (if is_the_first_bigger a b then a else b)) :
    value r + value (if is_the_first_bigger a b then b else a) =
      value (if is_the_first_bigger a b then a else b) := by
  rw [sub_bool_vectors_zero] at h
  injection h with h
  subst h
  rw [value_reverse]
  have := sub_loop_value (if is_the_first_bigger a b then a else b).reverse
    (if is_the_first_bigger a b then b else a).reverse false
    (by simpa using shorter_length_le a b)
    (by simpa [value_reverse, ← value_eq_value_rev] using hle)
  simpa [← value_eq_value_rev] using this

/-! ## Decimal strings -/

theorem decimal_foldl_acc : ∀ (s : List Char) (acc : Nat),
    s.foldl (fun acc c => 10 * acc + (c.toNat - 48)) acc =
      acc * 10 ^ s.length + s.foldl (fun acc c => 10 * acc + (c.toNat - 48)) 0 := by
  intro s
  induction s with
  | nil => intro acc; simp
  | cons c s ih =>
    intro acc
    rw [List.foldl_cons, ih, List.foldl_cons, ih (10 * 0 + (c.toNat - 48)), List.length_cons,
      pow_succ]
    ring

theorem decimal_value_cons (c : Char) (s : List Char) :
    decimal_value (c :: s) = (c.toNat - 48) * 10 ^ s.length + decimal_value s := by
  unfold decimal_value
  rw [List.foldl_cons, decimal_foldl_acc]
  simp

theorem decimal_value_lt : ∀ (s : List Char), (∀ x ∈ s, is_digit x = true) →
    decimal_value s < 10 ^ s.length := by
  intro s
  induction s with
  | nil => intro _; simp [decimal_value]
  | cons c s ih =>
    intro h
    have hc : is_digit c = true := h c (List.mem_cons_self _ _)
    have hs := ih (fun x hx => h x (List.mem_cons_of_mem _ hx))
    simp only [is_digit, Bool.and_eq_true, decide_eq_true_eq] at hc
    rw [decimal_value_cons, List.length_cons, pow_succ]
    have : (c.toNat - 48) * 10 ^ s.length ≤ 9 * 10 ^ s.length :=
      Nat.mul_le_mul_right _ (by omega)
    omega

theorem char_eq_zero_of_toNat (c : Char) (h : c.toNat = 48) : c = '0' := by
  rw [← Char.ofNat_toNat c, h]

theorem dig_to_char_spec (a : Nat) (h : a ≤ 9) :
    ∃ c, dig_to_char a = .ok c ∧ c.toNat = a + 48 := by
  interval_cases a <;> exact ⟨_, rfl, rfl⟩

theorem char_to_int_spec (c : Char) (h : is_digit c = true) :
    char_to_int c = .ok (c.toNat - 48) := by
  simp only [is_digit, Bool.and_eq_true, decide_eq_true_eq] at h
  unfold char_to_int
  rw [if_neg (by omega)]

theorem digit_ne_null (c : Char) (h : is_digit c = true) : c ≠ Char.ofNat 0 := by
  intro hc
  subst hc
  simp [is_digit] at h

/-! ## The halving pass -/

theorem halve_pass_spec : ∀ (s : List Char) (c : Bool), (∀ x ∈ s, is_digit x = true) →
    ∃ s1 c1, halve_pass s c = .ok (s1, c1) ∧ (∀ x ∈ s1, is_digit x = true) ∧
      s1.length = s.length ∧
      2 * decimal_value s1 + c1.toNat = c.toNat * 10 ^ s.length + decimal_value s := by
  intro s
  induction s with
  | nil =>
    intro c _
    exact ⟨[], c, rfl, by simp, rfl, by simp [decimal_value]⟩
  | cons chr rest ih =>
    intro c h
    have hc : is_digit chr = true := h chr (List.mem_cons_self _ _)
    have hrest := fun x hx => h x (List.mem_cons_of_mem chr hx)
    have hd : chr.toNat - 48 ≤ 9 := by
      simp only [is_digit, Bool.and_eq_true, decide_eq_true_eq] at hc
      omega
    obtain ⟨s1, c1, hp, hdig, hlen, hval⟩ :=
      ih (if (chr.toNat - 48) % 2 = 0 then false else true) hrest
    have hq : ((chr.toNat - 48) + (if c then 10 else 0)) / 2 ≤ 9 := by
      cases c <;> simp <;> omega
    obtain ⟨o, ho, hon⟩ := dig_to_char_spec _ hq
    refine ⟨o :: s1, c1, ?_, ?_, ?_, ?_⟩
    · rw [halve_pass, if_neg (digit_ne_null chr hc), char_to_int_spec chr hc]
      simp only [bind, Except.bind, ho, hp, pure, Except.pure]
    · intro x hx
      rcases List.mem_cons.mp hx with hx | hx
      · subst hx
        simp only [is_digit, Bool.and_eq_true, decide_eq_true_eq]
        omega
      · exact hdig x hx
    · simp [hlen]
    · rw [decimal_value_cons, decimal_value_cons, hon, hlen, List.length_cons, pow_succ]
      have h2 : 2 * (((chr.toNat - 48) + (if c then 10 else 0)) / 2) +
          (if (chr.toNat - 48) % 2 = 0 then false else true).toNat =
          (chr.toNat - 48) + 10 * c.toNat := by
        cases c <;> by_cases hpar : (chr.toNat - 48) % 2 = 0 <;> simp [hpar] <;> omega
      have h3 := congrArg (fun t => t * 10 ^ rest.length) h2
      simp only at h3
      simp only [Nat.add_sub_cancel]
      nlinarith [h3, hval]

theorem head_zero_iff (s : List Char) (hne : s ≠ []) (h : ∀ x ∈ s, is_digit x = true) :
    s.head? = some '0' ↔ decimal_value s < 10 ^ (s.length - 1) := by
  cases s with
  | nil => exact absurd rfl hne
  | cons c rest =>
    have hc : is_digit c = true := h c (List.mem_cons_self _ _)
    have hrest := decimal_value_lt rest (fun x hx => h x (List.mem_cons_of_mem c hx))
    simp only [is_digit, Bool.and_eq_true, decide_eq_true_eq] at hc
    rw [decimal_value_cons]
    simp only [List.head?_cons, Option.some.injEq, List.length_cons, Nat.add_sub_cancel]
    constructor
    · intro h0
      subst h0
      simpa using hrest
    · intro hlt
      apply char_eq_zero_of_toNat
      by_contra hne48
      have : 1 * 10 ^ rest.length ≤ (c.toNat - 48) * 10 ^ rest.length :=
        Nat.mul_le_mul_right _ (by omega)
      omega

/-! ## The conversion loop -/

theorem bits_eq_cons (v : Nat) (hv : v ≠ 0) :
    Nat.bits v = decide (v % 2 = 1) :: Nat.bits (v / 2) := by
  rcases Nat.mod_two_eq_zero_or_one v with h | h
  · have hv2 : v = 2 * (v / 2) := by omega
    have hne : v / 2 ≠ 0 := by omega
    conv_lhs => rw [hv2]
    rw [Nat.bit0_bits _ hne]
    simp [h]
  · have hv2 : v = 2 * (v / 2) + 1 := by omega
    conv_lhs => rw [hv2]
    rw [Nat.bit1_bits]
    simp [h]

theorem consume_loop_eq : ∀ (fuel : Nat) (dvd : List Char) (bools : List Bool),
    dvd ≠ [] → (∀ x ∈ dvd, is_digit x = true) → 10 ^ (dvd.length - 1) ≤ decimal_value dvd →
    consume_loop fuel dvd bools =
      if (Nat.bits (decimal_value dvd)).length ≤ fuel then
        some (.ok (bools ++ Nat.bits (decimal_value dvd)).reverse)
      else none := by
  intro fuel
  induction fuel with
  | zero =>
    intro dvd bools hne hdig hge
    have hpos : 0 < 10 ^ (dvd.length - 1) := Nat.pos_pow_of_pos _ (by norm_num)
    have hv : decimal_value dvd ≠ 0 := by omega
    rw [bits_eq_cons _ hv]
    simp [consume_loop]
  | succ fuel ih =>
    intro dvd bools hne hdig hge
    have hpos : 0 < 10 ^ (dvd.length - 1) := Nat.pos_pow_of_pos _ (by norm_num)
    have hv : decimal_value dvd ≠ 0 := by omega
    obtain ⟨dvd1, carry, hp, hdig1, hlen1, hval1⟩ := halve_pass_spec dvd false hdig
    simp only [Bool.toNat_false, zero_mul, zero_add] at hval1
    have hcarry : carry = decide (decimal_value dvd % 2 = 1) := by
      cases carry <;> simp at hval1 ⊢ <;> omega
    have hhalf : decimal_value dvd1 = decimal_value dvd / 2 := by
      cases carry <;> simp at hval1 <;> omega
    have hne1 : dvd1 ≠ [] := by
      intro h0
      rw [h0] at hlen1
      exact hne (List.length_eq_zero.mp hlen1.symm)
    rw [consume_loop, hp]
    simp only
    rw [bits_eq_cons _ hv, ← hcarry, ← hhalf]
    by_cases hz : dvd1.head? = some '0'
    · rw [if_pos hz]
      cases dvd1 with
      | nil => exact absurd rfl hne1
      | cons c dvd2 =>
        simp only [List.head?_cons, Option.some.injEq] at hz
        subst hz
        have hv1 : decimal_value ('0' :: dvd2) = decimal_value dvd2 := by
          rw [decimal_value_cons]
          simp
        rw [hv1] at hhalf ⊢
        simp only [List.tail_cons]
        cases dvd2 with
        | nil =>
          simp [decimal_value]
        | cons c2 dvd3 =>
          have hlen : dvd.length = dvd3.length + 2 := by simp at hlen1; omega
          have hge2 : 10 ^ ((c2 :: dvd3).length - 1) ≤ decimal_value (c2 :: dvd3) := by
            rw [hhalf]
            simp only [List.length_cons, Nat.add_sub_cancel]
            rw [hlen] at hge
            have : 10 ^ (dvd3.length + 2 - 1) = 10 * 10 ^ dvd3.length := by
              rw [show dvd3.length + 2 - 1 = dvd3.length + 1 by omega, pow_succ]
              ring
            omega
          rw [ih (c2 :: dvd3) (bools ++ [carry]) (by simp)
            (fun x hx => hdig1 x (List.mem_cons_of_mem _ hx)) hge2]
          simp
    · rw [if_neg hz]
      have hge1 : 10 ^ (dvd1.length - 1) ≤ decimal_value dvd1 := by
        by_contra hlt
        exact hz ((head_zero_iff dvd1 hne1 hdig1).mpr (by omega))
      rw [ih dvd1 (bools ++ [carry]) hne1 hdig1 hge1]
      simp

/-! ## The binary representation `to_bits` -/

theorem value_rev_bits : ∀ (v : Nat), value_rev (Nat.bits v) = v := by
  intro v
  induction v using Nat.strong_induction_on with
  | _ v ih =>
    by_cases hv : v = 0
    · subst hv; simp [value_rev]
    · rw [bits_eq_cons v hv, value_rev, ih (v / 2) (by omega)]
      rcases Nat.mod_two_eq_zero_or_one v with h | h <;> simp [h] <;> omega

theorem bits_getLast : ∀ (v : Nat), v ≠ 0 → (Nat.bits v).getLast? = some true := by
  intro v
  induction v using Nat.strong_induction_on with
  | _ v ih =>
    intro hv
    rw [bits_eq_cons v hv]
    by_cases h2 : v / 2 = 0
    · have : v = 1 := by omega
      subst this
      simp
    · have := ih (v / 2) (by omega) h2
      rw [bits_eq_cons _ h2] at this ⊢
      rw [List.getLast?_cons_cons]
      exact this

theorem value_to_bits (v : Nat) : value (to_bits v) = v := by
  unfold to_bits
  split
  · next h => subst h; rfl
  · rw [value_reverse, value_rev_bits]

theorem to_bits_zero : to_bits 0 = [false] := rfl

theorem to_bits_head (v : Nat) (hv : v ≠ 0) : (to_bits v).head? = some true := by
  unfold to_bits
  rw [if_neg hv, List.head?_reverse]
  exact bits_getLast v hv

theorem canonical_to_bits (v : Nat) : canonical (to_bits v) := by
  by_cases hv : v = 0
  · subst hv; exact Or.inl rfl
  · exact Or.inr (to_bits_head v hv)

/-! ## The constructor on decimal strings -/

theorem dropWhile_zero_spec : ∀ (s : List Char), (∀ x ∈ s, is_digit x = true) →
    (∀ x ∈ s.dropWhile (fun c => c == '0'), is_digit x = true) ∧
      decimal_value (s.dropWhile (fun c => c == '0')) = decimal_value s ∧
      (s.dropWhile (fun c => c == '0') ≠ [] →
        10 ^ ((s.dropWhile (fun c => c == '0')).length - 1) ≤
          decimal_value (s.dropWhile (fun c => c == '0'))) := by
  intro s
  induction s with
  | nil => intro _; simp
  | cons c rest ih =>
    intro h
    have hrest := ih (fun x hx => h x (List.mem_cons_of_mem c hx))
    by_cases hc : c = '0'
    · subst hc
      rw [List.dropWhile_cons_of_pos (by simp)]
      refine ⟨hrest.1, ?_, hrest.2.2⟩
      rw [hrest.2.1, decimal_value_cons]
      simp
    · rw [List.dropWhile_cons_of_neg (by simpa using hc)]
      refine ⟨h, rfl, fun hne => ?_⟩
      by_contra hlt
      have := (head_zero_iff (c :: rest) hne h).mpr (by omega)
      simp at this
      exact hc this

theorem ofString_decimal (s : List Char) (h : is_decimal s = true) (fuel : Nat) :
    Int.ofString fuel s =
      if Nat.size (decimal_value (digits_of s)) ≤ fuel then
        some (.ok { is_positive := decide (s.head? ≠ some '-'),
                    bools := to_bits (decimal_value (digits_of s)) })
      else none := by
  simp only [is_decimal, Bool.and_eq_true, Bool.not_eq_true', List.all_eq_true] at h
  obtain ⟨hne, hdig⟩ := h
  have hsign : (s.headD (Char.ofNat 0) != '-') = decide (s.head? ≠ some '-') := by
    cases s with
    | nil => rfl
    | cons c rest => by_cases hc : c = '-' <;> simp [hc]
  have hbody : s.drop (if (s.headD (Char.ofNat 0) != '-') = true then 0 else 1) = digits_of s := by
    unfold digits_of
    cases s with
    | nil => rfl
    | cons c rest => by_cases hc : c = '-' <;> simp [hc]
  unfold Int.ofString
  simp only [hbody]
  rw [hsign]
  obtain ⟨hd1, hv1, hge1⟩ := dropWhile_zero_spec (digits_of s) hdig
  unfold consume_str_to_bools
  by_cases hempty : (digits_of s).dropWhile (fun c => c == '0') = []
  · rw [hempty] at hv1
    have hv0 : decimal_value (digits_of s) = 0 := by rw [← hv1]; rfl
    simp [hempty, hv0, to_bits]
  · have hlen : ((digits_of s).dropWhile (fun c => c == '0')).length ≠ 0 := by
      intro h0
      exact hempty (List.length_eq_zero.mp h0)
    rw [if_neg hlen, consume_loop_eq fuel _ [] hempty hd1 (hge1 hempty), hv1,
      Nat.size_eq_bits_len]
    have hpos : 0 < 10 ^ (((digits_of s).dropWhile (fun c => c == '0')).length - 1) :=
      Nat.pos_pow_of_pos _ (by norm_num)
    have hv : decimal_value (digits_of s) ≠ 0 := by
      have := hge1 hempty
      omega
    by_cases hf : Nat.size (decimal_value (digits_of s)) ≤ fuel
    · simp [hf, to_bits, hv]
    · simp [hf]

theorem size_decimal_value_le (s : List Char) (h : ∀ x ∈ s, is_digit x = true) :
    Nat.size (decimal_value s) ≤ 4 * s.length := by
  rw [Nat.size_le]
  calc decimal_value s < 10 ^ s.length := decimal_value_lt s h
    _ ≤ 16 ^ s.length := Nat.pow_le_pow_left (by norm_num) _
    _ = 2 ^ (4 * s.length) := by rw [pow_mul]; norm_num

/-! ## Binary numerals -/

theorem toDigitsCore_two : ∀ (fuel n : Nat) (ds : List Char), n < fuel → n ≠ 0 →
    Nat.toDigitsCore 2 fuel n ds = (Nat.bits n).reverse.map bit_char ++ ds := by
  intro fuel
  induction fuel with
  | zero => intro n ds h; omega
  | succ fuel ih =>
    intro n ds hlt hn
    rw [Nat.toDigitsCore, bits_eq_cons n hn]
    have hd : (n % 2).digitChar = bit_char (decide (n % 2 = 1)) := by
      rcases Nat.mod_two_eq_zero_or_one n with h | h <;> simp [h, bit_char] <;> rfl
    by_cases h2 : n / 2 = 0
    · simp only [h2, if_true, Nat.zero_bits, hd]
      simp
    · simp only [h2, if_false]
      rw [ih (n / 2) _ (by omega) h2, hd]
      simp

theorem toDigits_two (v : Nat) : Nat.toDigits 2 v = (to_bits v).map bit_char := by
  unfold Nat.toDigits to_bits
  by_cases hv : v = 0
  · subst hv; rfl
  · rw [if_neg hv, toDigitsCore_two _ _ _ (by omega) hv]
    simp

theorem to_str_bools_loop_true : ∀ (l : List Bool),
    to_str_bools_loop l true = l.map bit_char := by
  intro l
  induction l with
  | nil => rfl
  | cons b l ih => cases b <;> simp [to_str_bools_loop, ih, bit_char]

theorem to_str_bools_loop_head (l : List Bool) (h : l.head? = some true) :
    to_str_bools_loop l false = l.map bit_char := by
  cases l with
  | nil => simp at h
  | cons b l =>
    simp at h
    subst h
    simp [to_str_bools_loop, to_str_bools_loop_true, bit_char]

theorem is_zero_vector_of_head (l : List Bool) (h : l.head? = some true) :
    is_zero_vector l = false := by
  cases l with
  | nil => simp at h
  | cons b l =>
    simp at h
    subst h
    simp [is_zero_vector]

theorem to_str_bools_to_bits (p : Bool) (v : Nat) :
    Int.to_str_bools { is_positive := p, bools := to_bits v } =
      binary_numeral (if p then (v : ℤ) else -(v : ℤ)) := by
  unfold Int.to_str_bools binary_numeral
  by_cases hv : v = 0
  · subst hv
    cases p <;> rfl
  · have hh := to_bits_head v hv
    simp only [is_zero_vector_of_head _ hh, to_str_bools_loop_head _ hh, toDigits_two]
    cases p
    · have : (-(v : ℤ) < 0) := by omega
      simp [this]
    · have : ¬ ((v : ℤ) < 0) := by omega
      simp [this]

/-! ## Signed addition on canonical magnitudes -/

theorem add_canonical (a b : Int) (ha : canonical a.bools) (hb : canonical b.bools) :
    ∃ c, Int.add a b = .ok c ∧ c.toInt = a.toInt + b.toInt ∧
      (a.is_positive = b.is_positive →
        value c.bools = value a.bools + value b.bools ∧ c.is_positive = a.is_positive) ∧
      (a.is_positive ≠ b.is_positive →
        (value b.bools < value a.bools →
          value c.bools = value a.bools - value b.bools ∧ c.is_positive = a.is_positive) ∧
        (value a.bools < value b.bools →
          value c.bools = value b.bools - value a.bools ∧ c.is_positive = b.is_positive)) := by
  obtain ⟨pa, xa⟩ := a
  obtain ⟨pb, xb⟩ := b
  simp only at ha hb
  by_cases hs : pa = pb
  · subst hs
    refine ⟨⟨pa, add_bool_vectors xa xb⟩, by simp [Int.add, pure, Except.pure], ?_, ?_, ?_⟩
    · cases pa <;> simp [Int.toInt, add_bool_vectors_value]
      omega
    · intro _; exact ⟨add_bool_vectors_value xa xb, rfl⟩
    · intro h; exact absurd rfl h
  · have hiff := is_the_first_bigger_iff xa xb ha hb
    obtain ⟨r, hr⟩ : ∃ r, sub_bool_vectors xa xb 0 = .ok r := ⟨_, sub_bool_vectors_zero xa xb⟩
    have hval := sub_bool_vectors_value xa xb r hr
    have hT : is_the_first_bigger xa xb = true → value r + value xb = value xa := by
      intro hb1
      have hlt := hiff.mp hb1
      rw [hb1] at hval
      exact hval (by simp only [if_true]; omega)
    have hF : is_the_first_bigger xa xb = false → value r + value xa = value xb := by
      intro hb1
      have hge : ¬ value xb < value xa := fun h => by
        rw [hiff.mpr h] at hb1
        exact absurd hb1 (by simp)
      rw [hb1] at hval
      exact hval (by simp only [Bool.false_eq_true, if_false]; omega)
    refine ⟨⟨if is_the_first_bigger xa xb then pa else pb, r⟩, ?_, ?_, ?_, ?_⟩
    · simp [Int.add, hs, hr, bind, Except.bind, pure, Except.pure]
    · cases hb1 : is_the_first_bigger xa xb
      · have hv := hF hb1
        cases pa <;> cases pb <;> simp [Int.toInt] at hs ⊢ <;> omega
      · have hv := hT hb1
        cases pa <;> cases pb <;> simp [Int.toInt] at hs ⊢ <;> omega
    · intro h; exact absurd h hs
    · intro _
      dsimp only
      constructor
      · intro hlt
        have hb1 := hiff.mpr hlt
        have hv := hT hb1
        rw [hb1]
        exact ⟨by omega, rfl⟩
      · intro hlt
        have hb1 : is_the_first_bigger xa xb = false := by
          cases h : is_the_first_bigger xa xb
          · rfl
          · have := hiff.mp h
            omega
        have hv := hF hb1
        rw [hb1]
        exact ⟨by omega, by simp⟩

theorem canonical_of_FromDecimal (a : Int) (h : FromDecimal a) : canonical a.bools := by
  obtain ⟨s, fuel, hs, hok⟩ := h
  rw [ofString_decimal s hs fuel] at hok
  split at hok
  · injection hok with hok
    injection hok with hok
    subst hok
    exact canonical_to_bits _
  · exact absurd hok (by simp)

/-! ## Swapping the operands of the comparison -/

theorem is_the_first_bigger_loop_self : ∀ (a : List Bool), is_the_first_bigger_loop a a = false := by
  intro a
  induction a with
  | nil => rfl
  | cons x xs ih => cases x <;> simp [is_the_first_bigger_loop, ih]

theorem is_the_first_bigger_loop_swap : ∀ (a b : List Bool), a.length = b.length → a ≠ b →
    is_the_first_bigger_loop b a = !is_the_first_bigger_loop a b := by
  intro a
  induction a with
  | nil =>
    intro b h hne
    have : b = [] := List.length_eq_zero.mp h.symm
    exact absurd this.symm hne
  | cons x xs ih =>
    intro b h hne
    cases b with
    | nil => simp at h
    | cons y ys =>
      have hl : xs.length = ys.length := by simpa using h
      cases x <;> cases y <;> simp [is_the_first_bigger_loop] <;>
        exact ih ys hl (fun h2 => hne (by rw [h2]))

theorem is_the_first_bigger_self (a : List Bool) : is_the_first_bigger a a = false := by
  simp [is_the_first_bigger, is_the_first_bigger_loop_self]

theorem is_the_first_bigger_swap (a b : List Bool) (hne : a ≠ b) :
    is_the_first_bigger b a = !is_the_first_bigger a b := by
  unfold is_the_first_bigger
  by_cases h : a.length = b.length
  · simp only [h, ne_eq, not_true_eq_false, if_false]
    exact is_the_first_bigger_loop_swap a b h hne
  · have h2 : ¬ b.length = a.length := fun h3 => h h3.symm
    simp only [ne_eq, h, h2, not_false_eq_true, if_true]
    by_cases h3 : a.length > b.length
    · have : ¬ b.length > a.length := by omega
      simp [h3, this]
    · have : b.length > a.length := by omega
      simp [h3, this]

/-! ## Zero vectors -/

theorem is_zero_vector_iff_value (l : List Bool) : is_zero_vector l = true ↔ value l = 0 := by
  induction l with
  | nil => simp [is_zero_vector, value]
  | cons b l ih =>
    rw [value_cons]
    simp only [is_zero_vector, List.all_cons, Bool.and_eq_true, Bool.not_eq_true'] at ih ⊢
    cases b
    · simp [ih]
    · simp

theorem is_zero_vector_reverse (l : List Bool) : is_zero_vector l.reverse = is_zero_vector l := by
  simp [is_zero_vector]

theorem sub_loop_self : ∀ (xs : List Bool), is_zero_vector (sub_loop xs xs false) = true := by
  intro xs
  induction xs with
  | nil => rfl
  | cons x xs ih =>
    cases x <;> simp [sub_loop, is_zero_vector] <;> simpa [is_zero_vector] using ih

theorem Int.eq_self (c : Int) : Int.eq c c = true := by
  simp [Int.eq]

theorem Int.eq_of_zero (c d : Int) (hc : is_zero_vector c.bools = true)
    (hd : is_zero_vector d.bools = true) : Int.eq c d = true := by
  simp [Int.eq, hc, hd]

theorem ofString_zero (fuel : Nat) :
    Int.ofString fuel ['0'] = some (.ok { is_positive := true, bools := [false] }) := by
  rfl

/-! ## Addition with swapped operands -/

theorem add_comm_eq (a b : Int) :
    ∃ c d, Int.add a b = .ok c ∧ Int.add b a = .ok d ∧ Int.eq c d = true := by
  obtain ⟨pa, xa⟩ := a
  obtain ⟨pb, xb⟩ := b
  by_cases hx : xa = xb
  · subst hx
    by_cases hs : pa = pb
    · subst hs
      exact ⟨⟨pa, add_bool_vectors xa xa⟩, ⟨pa, add_bool_vectors xa xa⟩,
        by simp [Int.add, pure, Except.pure], by simp [Int.add, pure, Except.pure], Int.eq_self _⟩
    · have hs2 : ¬ pb = pa := fun h => hs h.symm
      refine ⟨⟨pb, (sub_loop xa.reverse xa.reverse false).reverse⟩,
        ⟨pa, (sub_loop xa.reverse xa.reverse false).reverse⟩, ?_, ?_, ?_⟩
      · simp [Int.add, hs, sub_bool_vectors_zero, is_the_first_bigger_self, bind, Except.bind,
          pure, Except.pure]
      · simp [Int.add, hs2, sub_bool_vectors_zero, is_the_first_bigger_self, bind, Except.bind,
          pure, Except.pure]
      · apply Int.eq_of_zero <;> simp [is_zero_vector_reverse, sub_loop_self]
  · have hsw := is_the_first_bigger_swap xa xb hx
    by_cases hs : pa = pb
    · subst hs
      refine ⟨⟨pa, add_bool_vectors xa xb⟩, ⟨pa, add_bool_vectors xa xb⟩, ?_, ?_, Int.eq_self _⟩
      · simp [Int.add, pure, Except.pure]
      · simp only [Int.add, ne_eq, not_true_eq_false, if_false, pure, Except.pure]
        congr 2
        unfold add_bool_vectors
        rw [hsw]
        cases is_the_first_bigger xa xb <;> simp
    · have hs2 : ¬ pb = pa := fun h => hs h.symm
      refine ⟨⟨if is_the_first_bigger xa xb then pa else pb,
          (sub_loop (if is_the_first_bigger xa xb then xa else xb).reverse
            (if is_the_first_bigger xa xb then xb else xa).reverse false).reverse⟩, _,
        ?_, ?_, Int.eq_self _⟩
      · simp [Int.add, hs, sub_bool_vectors_zero, bind, Except.bind, pure, Except.pure]
      · simp only [Int.add, ne_eq, hs2, not_false_eq_true, if_true, sub_bool_vectors_zero, bind,
          Except.bind, pure, Except.pure]
        rw [hsw]
        cases is_the_first_bigger xa xb <;> simp

/-! ## Products with zero -/

theorem to_str_of_zero (c : Int) (hc : is_zero_vector c.bools = true) :
    Int.to_str c = .ok ['0'] := by
  simp [Int.to_str, hc]

theorem mul_zero_vector (a z : Int) (hz : is_zero_vector z.bools = true) :
    is_zero_vector (Int.mul a z).bools = true ∧ is_zero_vector (Int.mul z a).bools = true := by
  rw [is_zero_vector_iff_value] at hz
  simp only [Int.mul, is_zero_vector_iff_value, mul_bool_vectors_value, hz]
  simp

/-! ## The constructor on `-0` -/

theorem dropWhile_zeros (n : Nat) :
    (List.replicate n '0').dropWhile (fun c => c == '0') = [] := by
  induction n with
  | zero => rfl
  | succ n ih => rw [List.replicate_succ, List.dropWhile_cons_of_pos (by simp), ih]

theorem ofString_negative_zero (n fuel : Nat) :
    Int.ofString fuel ('-' :: List.replicate (n + 1) '0') =
      some (.ok { is_positive := false, bools := [false] }) := by
  have h1 : (('-' :: List.replicate (n + 1) '0').headD (Char.ofNat 0) != '-') = false := by
    simp
  unfold Int.ofString
  simp only [h1, Bool.false_eq_true, if_false, List.drop_succ_cons, List.drop_zero,
    dropWhile_zeros]
  rfl

/-! ## The binary display -/

theorem to_str_bools_loop_false : ∀ (l : List Bool),
    to_str_bools_loop l false = (l.dropWhile (fun b => !b)).map bit_char := by
  intro l
  induction l with
  | nil => rfl
  | cons b l ih =>
    cases b
    · rw [List.dropWhile_cons_of_pos (by simp), ← ih]
      simp [to_str_bools_loop]
    · rw [List.dropWhile_cons_of_neg (by simp)]
      simp [to_str_bools_loop, to_str_bools_loop_true, bit_char]

theorem is_zero_vector_prepend (n : Nat) (l : List Bool) :
    is_zero_vector (List.replicate n false ++ l) = is_zero_vector l := by
  simp [is_zero_vector]

theorem dropWhile_prepend (n : Nat) (l : List Bool) :
    (List.replicate n false ++ l).dropWhile (fun b => !b) = l.dropWhile (fun b => !b) := by
  induction n with
  | zero => rfl
  | succ n ih =>
    rw [List.replicate_succ, List.cons_append, List.dropWhile_cons_of_pos (by simp), ih]

theorem dropWhile_of_not_zero : ∀ (l : List Bool), is_zero_vector l = false →
    ∃ rest, l.dropWhile (fun b => !b) = true :: rest := by
  intro l
  induction l with
  | nil => intro h; simp [is_zero_vector] at h
  | cons b l ih =>
    intro h
    cases b
    · rw [List.dropWhile_cons_of_pos (by simp)]
      apply ih
      simpa [is_zero_vector] using h
    · exact ⟨l, by rw [List.dropWhile_cons_of_neg (by simp)]⟩

theorem to_str_bools_eq (a : Int) :
    a.to_str_bools =
      if is_zero_vector a.bools then ['0']
      else (if a.is_positive then [] else ['-']) ++
        (a.bools.dropWhile (fun b => !b)).map bit_char := by
  unfold Int.to_str_bools
  rw [to_str_bools_loop_false]

/-! ## The constructor on invalid input -/

theorem char_to_int_error (c : Char) (h : is_digit c = false) :
    char_to_int c = .error .domain_error := by
  simp only [is_digit, Bool.and_eq_false_iff, decide_eq_false_iff_not] at h
  unfold char_to_int
  rw [if_pos (by omega)]

theorem halve_pass_error : ∀ (pre : List Char) (c : Char) (post : List Char) (carry : Bool),
    (∀ x ∈ pre, is_digit x = true) → is_digit c = false → c ≠ Char.ofNat 0 →
    halve_pass (pre ++ c :: post) carry = .error .domain_error := by
  intro pre
  induction pre with
  | nil =>
    intro c post carry _ hc hnull
    rw [List.nil_append, halve_pass, if_neg hnull, char_to_int_error c hc]
    rfl
  | cons x pre ih =>
    intro c post carry hpre hc hnull
    have hx : is_digit x = true := hpre x (List.mem_cons_self _ _)
    have hd : x.toNat - 48 ≤ 9 := by
      simp only [is_digit, Bool.and_eq_true, decide_eq_true_eq] at hx
      omega
    have hq : ((x.toNat - 48) + (if carry then 10 else 0)) / 2 ≤ 9 := by
      cases carry <;> simp <;> omega
    obtain ⟨o, ho, _⟩ := dig_to_char_spec _ hq
    rw [List.cons_append, halve_pass, if_neg (digit_ne_null x hx), char_to_int_spec x hx]
    simp only [bind, Except.bind, ho,
      ih c post _ (fun y hy => hpre y (List.mem_cons_of_mem _ hy)) hc hnull]

theorem dropWhile_zero_invalid : ∀ (pre : List Char) (c : Char) (post : List Char),
    (∀ x ∈ pre, is_digit x = true) → is_digit c = false →
    ∃ pre1, (∀ x ∈ pre1, is_digit x = true) ∧
      (pre ++ c :: post).dropWhile (fun x => x == '0') = pre1 ++ c :: post := by
  intro pre
  induction pre with
  | nil =>
    intro c post _ hc
    refine ⟨[], by simp, ?_⟩
    have hne : ¬ (c == '0') = true := by
      intro h0
      have : c = '0' := by simpa using h0
      subst this
      simp [is_digit] at hc
    rw [List.nil_append, List.dropWhile_cons]
    simp [hne]
  | cons x pre ih =>
    intro c post hpre hc
    by_cases hx : (x == '0') = true
    · obtain ⟨pre1, h1, h2⟩ := ih c post (fun y hy => hpre y (List.mem_cons_of_mem _ hy)) hc
      refine ⟨pre1, h1, ?_⟩
      rw [List.cons_append, List.dropWhile_cons]
      simp only [hx, if_true]
      exact h2
    · refine ⟨x :: pre, hpre, ?_⟩
      rw [List.cons_append, List.dropWhile_cons]
      simp [hx]

theorem ofString_body (s : List Char) :
    s.drop (if (s.headD (Char.ofNat 0) != '-') = true then 0 else 1) = digits_of s := by
  unfold digits_of
  cases s with
  | nil => rfl
  | cons c rest => by_cases hc : c = '-' <;> simp [hc]

theorem consume_loop_null : ∀ (fuel : Nat) (bools : List Bool),
    consume_loop fuel [Char.ofNat 0] bools = none := by
  intro fuel
  induction fuel with
  | zero => intro bools; rfl
  | succ fuel ih =>
    intro bools
    rw [consume_loop]
    have hp : halve_pass [Char.ofNat 0] false = .ok ([Char.ofNat 0], false) := rfl
    rw [hp]
    have hh : ¬ ([Char.ofNat 0].head? = some '0') := by decide
    simp only [hh, if_false]
    exact ih _

theorem ofString_one_null (fuel : Nat) : Int.ofString fuel ['1', Char.ofNat 0] = none := by
  cases fuel with
  | zero => rfl
  | succ fuel =>
    have h : consume_loop (fuel + 1) ['1', Char.ofNat 0] [] =
        consume_loop fuel [Char.ofNat 0] ([] ++ [true]) := by
      rw [consume_loop]
      rfl
    have h2 : Int.ofString (fuel + 1) ['1', Char.ofNat 0] =
        match consume_loop (fuel + 1) ['1', Char.ofNat 0] [] with
        | none => none
        | some (.error e) => some (.error e)
        | some (.ok bools) => some (.ok { is_positive := true, bools := bools }) := rfl
    rw [h2, h, consume_loop_null]

/-- When the first character of the digit portion that is not a decimal digit
is not the null character, the constructor fails with `domain_error` for
every budget of at least one pass. -/
theorem ofString_invalid_digit (s : List Char) (c : Char) (fuel : Nat) (hfuel : 0 < fuel)
    (hfirst : (digits_of s).find? (fun x => !is_digit x) = some c) (hc : c ≠ Char.ofNat 0) :
    Int.ofString fuel s = some (.error .domain_error) := by
  obtain ⟨hnd, pre, post, hsplit, hpre⟩ := List.find?_eq_some.mp hfirst
  have hcd : is_digit c = false := by simpa using hnd
  have hpre2 : ∀ x ∈ pre, is_digit x = true := by
    intro x hx
    simpa using hpre x hx
  obtain ⟨pre1, hpre1, hdrop⟩ := dropWhile_zero_invalid pre c post hpre2 hcd
  obtain ⟨k, rfl⟩ : ∃ k, fuel = k + 1 := ⟨fuel - 1, by omega⟩
  unfold Int.ofString
  simp only [ofString_body, hsplit, hdrop]
  unfold consume_str_to_bools
  have hlen : ¬ (pre1 ++ c :: post).length = 0 := by simp
  rw [if_neg hlen, consume_loop, halve_pass_error pre1 c post false hpre1 hcd hc]

/-! ## The length of a sum -/

theorem add_loop_length : ∀ (xs ys : List Bool) (c : Bool), ys.length ≤ xs.length →
    (add_loop xs ys c).length =
      xs.length + (if 2 ^ xs.length ≤ value_rev xs + value_rev ys + c.toNat then 1 else 0) := by
  intro xs
  induction xs with
  | nil =>
    intro ys c h
    have : ys = [] := List.length_eq_zero.mp (Nat.le_zero.mp h)
    subst this
    cases c <;> simp [add_loop, value_rev]
  | cons x xs ih =>
    intro ys c h
    have hp : 0 < 2 ^ xs.length := Nat.pos_pow_of_pos _ (by norm_num)
    cases ys with
    | nil =>
      cases x <;> cases c <;>
        simp [add_loop, value_rev, ih [] _ (Nat.zero_le _), pow_succ] <;>
        split_ifs <;> omega
    | cons y ys =>
      have hl : ys.length ≤ xs.length := by simpa using h
      cases x <;> cases y <;> cases c <;>
        simp [add_loop, value_rev, ih ys _ hl, pow_succ] <;>
        split_ifs <;> omega

theorem longer_length (a b : List Bool) :
    (if is_the_first_bigger a b then a else b).length = max a.length b.length := by
  unfold is_the_first_bigger
  by_cases h : a.length = b.length
  · simp only [h, ne_eq, not_true_eq_false, if_false]
    split <;> simp [h]
  · simp only [ne_eq, h, not_false_eq_true, if_true]
    by_cases h2 : a.length > b.length
    · simp [h2]; omega
    · simp [h2]; omega

theorem add_bool_vectors_length (a b : List Bool) :
    (add_bool_vectors a b).length =
      max a.length b.length +
        (if 2 ^ max a.length b.length ≤ value a + value b then 1 else 0) := by
  unfold add_bool_vectors
  simp only [List.length_reverse]
  rw [add_loop_length _ _ _ (by simpa using shorter_length_le a b)]
  simp only [List.length_reverse, longer_length, value_reverse, ← value_eq_value_rev,
    Bool.toNat_false, add_zero]
  cases is_the_first_bigger a b
  · simp [Nat.add_comm]
  · simp

/-! ## Subtraction at an offset -/

theorem sub_offset_longer (x y : List Bool) (k : Nat) (hlen : y.length + k ≤ x.length)
    (hval : value y * 2 ^ k ≤ value x) :
    ∃ r, r = (x.reverse.take k ++ sub_loop (x.reverse.drop k) y.reverse false).reverse ∧
      r.length = x.length ∧ value r + value y * 2 ^ k = value x ∧
      r.reverse.take k = x.reverse.take k := by
  refine ⟨_, rfl, ?_, ?_, ?_⟩
  · simp [sub_loop_length]
    omega
  · have hk : (x.reverse.take k).length = k := by simp; omega
    have hsplit : value x = value_rev (x.reverse.take k) +
        2 ^ k * value_rev (x.reverse.drop k) := by
      rw [value_eq_value_rev x]
      conv_lhs => rw [← List.take_append_drop k x.reverse]
      rw [value_rev_append, hk]
    have hlow : value_rev (x.reverse.take k) < 2 ^ k := by
      have := value_rev_lt (x.reverse.take k)
      rwa [hk] at this
    have hU : value_rev y.reverse ≤ value_rev (x.reverse.drop k) := by
      rw [← value_eq_value_rev]
      by_contra hlt
      have h1 : value_rev (x.reverse.drop k) + 1 ≤ value y := by omega
      have h2 := Nat.mul_le_mul_left (2 ^ k) h1
      rw [Nat.mul_add, Nat.mul_one, Nat.mul_comm (2 ^ k) (value y)] at h2
      omega
    have hsub := sub_loop_value (x.reverse.drop k) y.reverse false (by simp; omega)
      (by simpa using hU)
    rw [value_reverse, value_rev_append, hk, hsplit]
    simp only [Bool.toNat_false, add_zero, ← value_eq_value_rev] at hsub
    rw [← hsub, Nat.mul_add, Nat.mul_comm (2 ^ k) (value y)]
    omega
  · rw [List.reverse_reverse, List.take_left']
    simp
    omega

theorem sub_bool_vectors_offset (x y : List Bool) (k : Nat) (hlen : y.length + k ≤ x.length)
    (hval : value y * 2 ^ k ≤ value x) :
    ∃ r, sub_bool_vectors x y k = .ok r ∧ r.length = x.length ∧
      value r + value y * 2 ^ k = value x ∧ r.reverse.take k = x.reverse.take k := by
  by_cases hb : is_the_first_bigger x y = true
  · obtain ⟨r, hr, h1, h2, h3⟩ := sub_offset_longer x y k hlen hval
    refine ⟨r, ?_, h1, h2, h3⟩
    have hnot : ¬ size_t_sub x.length y.length < k := by
      unfold size_t_sub
      rw [if_pos (by omega)]
      omega
    simp only [sub_bool_vectors, hb, if_true, hnot, if_false]
    rw [hr]
  · have hb2 : is_the_first_bigger x y = false := by simpa using hb
    have hleq : x.length = y.length := by
      by_contra hne
      have : x.length > y.length := by omega
      simp [is_the_first_bigger, hne, this] at hb2
    have hk : k = 0 := by omega
    subst hk
    have hloop : is_the_first_bigger_loop x y = false := by
      simpa [is_the_first_bigger, hleq] using hb2
    have hle : value x ≤ value y := by
      by_contra hlt
      have := (is_the_first_bigger_loop_iff x y hleq).mpr (by omega)
      rw [hloop] at this
      exact absurd this (by simp)
    have hxy : value x = value y := by simp at hval; omega
    obtain ⟨r, hr, h1, h2, h3⟩ := sub_offset_longer y x 0 (by omega) (by simp; omega)
    refine ⟨r, ?_, by omega, ?_, by simp⟩
    · have hnot : ¬ size_t_sub y.length x.length < 0 := by omega
      simp only [sub_bool_vectors, hb2, Bool.false_eq_true, if_false, hnot]
      rw [hr]
    · simp at h2 ⊢
      omega

/-! ## Long division -/

theorem can_divide_loop_spec : ∀ (v W low : List Bool), W.length = v.length →
    can_divide_loop (W ++ low) v = .ok (decide (value v ≤ value W)) := by
  intro v
  induction v with
  | nil =>
    intro W low h
    have : W = [] := List.length_eq_zero.mp h
    subst this
    cases low <;> simp [can_divide_loop]
  | cons y v ih =>
    intro W low h
    cases W with
    | nil => simp at h
    | cons x W =>
      have hl : W.length = v.length := by simpa using h
      have hW := value_lt W
      have hv := value_lt v
      rw [hl] at hW
      rw [List.cons_append, can_divide_loop, value_cons, value_cons, hl, ih W low hl]
      cases x <;> cases y <;> simp <;> omega

theorem can_divide_arith (vA vW vl V Pm p : Nat) (hl : vl < p) (hV : V < Pm)
    (hc : vA * (Pm * p) + vW * p + vl < V * (2 * p)) :
    vA ≤ 1 ∧ (1 ≤ vA → V * p ≤ vA * (Pm * p) + vW * p + vl) ∧
      (vA = 0 → (V * p ≤ vA * (Pm * p) + vW * p + vl ↔ V ≤ vW)) := by
  have hp : 0 < p := by omega
  have h1 : V * p < Pm * p := Nat.mul_lt_mul_of_pos_right hV hp
  have h2 : V * (2 * p) = 2 * (V * p) := by ring
  refine ⟨?_, ?_, ?_⟩
  · by_contra h
    have h3 : 2 * (Pm * p) ≤ vA * (Pm * p) := Nat.mul_le_mul_right _ (by omega)
    omega
  · intro h
    have h3 : 1 * (Pm * p) ≤ vA * (Pm * p) := Nat.mul_le_mul_right _ h
    omega
  · intro h0
    subst h0
    constructor
    · intro h
      by_contra hlt
      have h3 : (vW + 1) * p ≤ V * p := Nat.mul_le_mul_right _ (by omega)
      rw [Nat.add_mul] at h3
      omega
    · intro h
      have h3 : V * p ≤ vW * p := Nat.mul_le_mul_right _ h
      omega

theorem value_split (c : List Bool) (i m j : Nat) (h : c.length = i + m + j) :
    value c = value (c.take i) * (2 ^ m * 2 ^ j) + value ((c.drop i).take m) * 2 ^ j +
      value ((c.drop i).drop m) ∧
    ((c.drop i).take m).length = m ∧ ((c.drop i).drop m).length = j := by
  have h1 : ((c.drop i).take m).length = m := by simp; omega
  have h2 : ((c.drop i).drop m).length = j := by simp; omega
  refine ⟨?_, h1, h2⟩
  conv_lhs => rw [← List.take_append_drop i c]
  rw [value_append]
  conv_lhs => rw [← List.take_append_drop m (c.drop i)]
  rw [value_append, List.length_append, h1, h2, pow_add]
  ring

theorem can_divide_spec (dvd v : List Bool) (i j : Nat) (hlen : dvd.length = i + v.length + j)
    (hc : value dvd < value v * 2 ^ (j + 1)) :
    can_divide dvd v i = .ok (decide (value v * 2 ^ j ≤ value dvd)) := by
  obtain ⟨hsplit, hW, hlow⟩ := value_split dvd i v.length j hlen
  have hvl : value ((dvd.drop i).drop v.length) < 2 ^ j := by
    have := value_lt ((dvd.drop i).drop v.length)
    rwa [hlow] at this
  have hc2 : value (dvd.take i) * (2 ^ v.length * 2 ^ j) + value ((dvd.drop i).take v.length) * 2 ^ j +
      value ((dvd.drop i).drop v.length) < value v * (2 * 2 ^ j) := by
    rw [← hsplit]
    rw [pow_succ] at hc
    rw [Nat.mul_comm 2 (2 ^ j)]
    exact hc
  obtain ⟨hA1, hA2, hA3⟩ := can_divide_arith _ _ _ _ _ _ hvl (value_lt v) hc2
  rw [← hsplit] at hA2 hA3
  have hloop : can_divide_loop (dvd.drop i) v =
      .ok (decide (value v ≤ value ((dvd.drop i).take v.length))) := by
    conv_lhs => rw [← List.take_append_drop v.length (dvd.drop i)]
    exact can_divide_loop_spec v _ _ hW
  unfold can_divide
  cases i with
  | zero =>
    have h0 : value (dvd.take 0) = 0 := by simp [value]
    simp only [ge_iff_le, Nat.le_zero_eq, one_ne_zero, if_false, hloop]
    congr 1
    exact decide_eq_decide.mpr (hA3 h0).symm
  | succ k =>
    have hk : k < dvd.length := by omega
    have htake : dvd.take (k + 1) = dvd.take k ++ [dvd[k]] := by
      rw [List.take_succ, List.getElem?_eq_getElem hk]
      rfl
    have hval : value (dvd.take (k + 1)) = 2 * value (dvd.take k) + (dvd[k]).toNat := by
      rw [htake, value_append_singleton]
    simp only [ge_iff_le, Nat.le_add_left, if_true, Nat.add_sub_cancel,
      List.getElem?_eq_getElem hk]
    cases hb : dvd[k]
    · rw [hb] at hval
      simp only [Bool.toNat_false, add_zero] at hval
      have h0 : value (dvd.take (k + 1)) = 0 := by omega
      simp only [hloop]
      congr 1
      exact decide_eq_decide.mpr (hA3 h0).symm
    · rw [hb] at hval
      simp only [Bool.toNat_true] at hval
      have := hA2 (by omega)
      simp [this]

theorem div_loop_spec (v : List Bool) (n : Nat) : ∀ (count i : Nat) (dvd result : List Bool),
    dvd.length = n → i + v.length + count = n + 1 → value dvd < value v * 2 ^ count →
    ∃ q r, div_loop v n v.length count i dvd result = .ok (result ++ q, r) ∧
      q.length = count ∧ r.length = n ∧ value dvd = value q * value v + value r ∧
      value r < value v := by
  intro count
  induction count with
  | zero =>
    intro i dvd result hlen _ hval
    exact ⟨[], dvd, by simp [div_loop], rfl, hlen, by simp [value], by simpa using hval⟩
  | succ j ih =>
    intro i dvd result hlen hi hval
    have hcd := can_divide_spec dvd v i j (by omega) hval
    have hoff : size_t_sub n (i + v.length) = j := by
      unfold size_t_sub
      rw [if_pos (by omega)]
      omega
    have hval2 : value dvd < 2 * (value v * 2 ^ j) := by
      rw [pow_succ] at hval
      linarith
    by_cases hge : value v * 2 ^ j ≤ value dvd
    · obtain ⟨tmp, htmp, htl, htv, _⟩ := sub_bool_vectors_offset dvd v j (by omega) hge
      obtain ⟨q, r, hq, hql, hrl, hqv, hrv⟩ :=
        ih (i + 1) tmp (result ++ [true]) (by omega) (by omega) (by omega)
      refine ⟨true :: q, r, ?_, by simp [hql], hrl, ?_, hrv⟩
      · rw [div_loop]
        simp only [hcd, hge, decide_True, bind, Except.bind, if_true, hoff, htmp, hq,
          List.append_assoc, List.singleton_append]
      · rw [value_cons, hql, ← htv, hqv]
        simp
        ring
    · obtain ⟨q, r, hq, hql, hrl, hqv, hrv⟩ :=
        ih (i + 1) dvd (result ++ [false]) hlen (by omega) (by omega)
      refine ⟨false :: q, r, ?_, by simp [hql], hrl, ?_, hrv⟩
      · rw [div_loop]
        simp only [hcd, hge, decide_False, bind, Except.bind, Bool.false_eq_true, if_false, hq,
          List.append_assoc, List.singleton_append]
      · rw [value_cons, hqv]
        simp

theorem div_bool_vectors_bare_spec (d v rem : List Bool) (hhead : v.head? = some true)
    (hlen : v.length ≤ d.length) (hsize : d.length < 2 ^ 64) :
    ∃ q r, div_bool_vectors_bare d v [] rem = .ok (q, r) ∧
      value d = value q * value v + value r ∧ value r < value v ∧
      q.length = d.length - v.length + 1 ∧ r.length = d.length := by
  have hm : 1 ≤ v.length := by
    cases v with
    | nil => simp at hhead
    | cons y ys => simp
  have hz : is_zero_vector v = false := is_zero_vector_of_head v hhead
  have hdif : size_t_sub d.length v.length = d.length - v.length := by
    unfold size_t_sub
    rw [if_pos hlen]
  have hsucc : size_t_succ (d.length - v.length) = d.length - v.length + 1 := by
    unfold size_t_succ
    rw [if_neg (by omega)]
  have hval : value d < value v * 2 ^ (d.length - v.length + 1) := by
    have h1 := value_lt d
    have h2 := value_ge_of_head v hhead
    have h3 : 2 ^ d.length = 2 ^ (v.length - 1) * 2 ^ (d.length - v.length + 1) := by
      rw [← pow_add]
      congr 1
      omega
    have h4 := Nat.mul_le_mul_right (2 ^ (d.length - v.length + 1)) h2
    omega
  obtain ⟨q, r, hq, hql, hrl, hqv, hrv⟩ :=
    div_loop_spec v d.length (d.length - v.length + 1) 0 d [] rfl (by omega) hval
  refine ⟨q, r, ?_, hqv, hrv, hql, hrl⟩
  unfold div_bool_vectors_bare
  simp only [hz, Bool.false_eq_true, if_false, hdif, hsucc, ite_self]
  simpa using hq

/-! ## Decimal numerals -/

theorem decimal_value_append_singleton (l : List Char) (c : Char) :
    decimal_value (l ++ [c]) = 10 * decimal_value l + (c.toNat - 48) := by
  simp [decimal_value, List.foldl_append]

theorem decimal_value_reverse (l : List Char) :
    decimal_value l.reverse = decimal_value_rev l := by
  induction l with
  | nil => rfl
  | cons c cs ih =>
    rw [List.reverse_cons, decimal_value_append_singleton, ih, decimal_value_rev]
    omega

theorem decimal_value_eq_rev (l : List Char) :
    decimal_value l = decimal_value_rev l.reverse := by
  rw [← decimal_value_reverse, List.reverse_reverse]

theorem digit_toNat (c : Char) (h : is_digit c = true) : 48 ≤ c.toNat ∧ c.toNat ≤ 57 := by
  simpa [is_digit] using h

theorem is_digit_of_toNat (c : Char) (h1 : 48 ≤ c.toNat) (h2 : c.toNat ≤ 57) :
    is_digit c = true := by
  simp [is_digit, h1, h2]

theorem numeral_ge (s : List Char) (n : Nat) (h : is_numeral s n) (hlen : 2 ≤ s.length) :
    10 ^ (s.length - 1) ≤ n := by
  obtain ⟨hne, hdig, hhead, hval⟩ := h
  by_contra hlt
  have h0 := (head_zero_iff s hne hdig).mpr (by omega)
  have := hhead h0
  rw [this] at hlen
  simp at hlen

theorem numeral_of_bounds (s : List Char) (n : Nat) (hne : s ≠ [])
    (hdig : ∀ x ∈ s, is_digit x = true) (hval : decimal_value s = n)
    (hge : 2 ≤ s.length → 10 ^ (s.length - 1) ≤ n) : is_numeral s n := by
  refine ⟨hne, hdig, ?_, hval⟩
  intro h0
  have hlt := (head_zero_iff s hne hdig).mp h0
  have hlen : s.length < 2 := by
    by_contra h2
    have := hge (by omega)
    omega
  cases s with
  | nil => exact absurd rfl hne
  | cons c rest =>
    cases rest with
    | nil =>
      simp at h0
      rw [h0]
    | cons c2 rest2 =>
      simp only [List.length_cons] at hlen
      omega

theorem toDigitsCore_ten : ∀ (fuel n : Nat) (acc : List Char), n < fuel →
    ∃ ds, Nat.toDigitsCore 10 fuel n acc = ds ++ acc ∧ is_numeral ds n := by
  intro fuel
  induction fuel with
  | zero => intro n acc h; omega
  | succ fuel ih =>
    intro n acc hlt
    have hd : ∃ d, (n % 10).digitChar = d ∧ d.toNat = n % 10 + 48 := by
      have h10 : n % 10 < 10 := Nat.mod_lt _ (by norm_num)
      generalize n % 10 = r at h10
      interval_cases r <;> exact ⟨_, rfl, rfl⟩
    obtain ⟨d, hd1, hd2⟩ := hd
    have hdd : is_digit d = true := is_digit_of_toNat d (by omega) (by omega)
    rw [Nat.toDigitsCore]
    simp only [hd1]
    by_cases h0 : n / 10 = 0
    · rw [if_pos h0]
      refine ⟨[d], rfl, numeral_of_bounds [d] n (by simp) ?_ ?_ (by simp)⟩
      · intro x hx
        simp at hx
        rw [hx]
        exact hdd
      · rw [decimal_value_cons]
        simp [decimal_value, hd2]
        omega
    · rw [if_neg h0]
      obtain ⟨ds, hds, hne, hdig, hhead, hval⟩ := ih (n / 10) (d :: acc) (by omega)
      have hds_ne0 : ds ≠ ['0'] := by
        intro h
        rw [h] at hval
        simp [decimal_value] at hval
        omega
      refine ⟨ds ++ [d], by rw [hds]; simp, by simp, ?_, ?_, ?_⟩
      · intro x hx
        rcases List.mem_append.mp hx with hx | hx
        · exact hdig x hx
        · simp at hx
          rw [hx]
          exact hdd
      · intro hh
        have : ds.head? = some '0' := by
          cases ds with
          | nil => exact absurd rfl hne
          | cons c cs => simpa using hh
        exact absurd (hhead this) hds_ne0
      · rw [decimal_value_append_singleton, hval, hd2]
        omega

theorem toDigits_numeral (n : Nat) : is_numeral (Nat.toDigits 10 n) n := by
  obtain ⟨ds, hds, hnum⟩ := toDigitsCore_ten (n + 1) n [] (by omega)
  unfold Nat.toDigits
  rw [hds, List.append_nil]
  exact hnum

theorem digits_eq_of_value : ∀ (s t : List Char), s.length = t.length →
    (∀ x ∈ s, is_digit x = true) → (∀ x ∈ t, is_digit x = true) →
    decimal_value s = decimal_value t → s = t := by
  intro s
  induction s with
  | nil =>
    intro t h _ _ _
    exact (List.length_eq_zero.mp h.symm).symm
  | cons c s ih =>
    intro t h hs ht hv
    cases t with
    | nil => simp at h
    | cons c2 t =>
      have hl : s.length = t.length := by simpa using h
      have hs2 := fun x hx => hs x (List.mem_cons_of_mem c hx)
      have ht2 := fun x hx => ht x (List.mem_cons_of_mem c2 hx)
      have h1 := decimal_value_lt s hs2
      have h2 := decimal_value_lt t ht2
      have hc := digit_toNat c (hs c (List.mem_cons_self _ _))
      have hc2 := digit_toNat c2 (ht c2 (List.mem_cons_self _ _))
      rw [decimal_value_cons, decimal_value_cons, hl] at hv
      rw [hl] at h1
      have hdig : c.toNat - 48 = c2.toNat - 48 := by
        rcases Nat.lt_trichotomy (c.toNat - 48) (c2.toNat - 48) with hlt | heq | hgt
        · have := Nat.mul_le_mul_right (10 ^ t.length) (Nat.succ_le_of_lt hlt)
          rw [Nat.succ_mul] at this
          omega
        · exact heq
        · have := Nat.mul_le_mul_right (10 ^ t.length) (Nat.succ_le_of_lt hgt)
          rw [Nat.succ_mul] at this
          omega
      have hcc : c = c2 := by
        rw [← Char.ofNat_toNat c, ← Char.ofNat_toNat c2]
        congr 1
        omega
      rw [hdig] at hv
      rw [hcc, ih t hl hs2 ht2 (by omega)]

theorem numeral_unique (s t : List Char) (n : Nat) (hs : is_numeral s n) (ht : is_numeral t n) :
    s = t := by
  have hlen : ∀ (a b : List Char), is_numeral a n → is_numeral b n → a.length ≤ b.length := by
    intro a b ha hb
    by_contra hlt
    have hb1 : 1 ≤ b.length := by
      cases b with
      | nil => exact absurd rfl hb.1
      | cons c cs => simp
    have h1 := numeral_ge a n ha (by omega)
    have h2 := decimal_value_lt b hb.2.1
    rw [hb.2.2.2] at h2
    have h3 : 10 ^ b.length ≤ 10 ^ (a.length - 1) :=
      Nat.pow_le_pow_right (by norm_num) (by omega)
    omega
  exact digits_eq_of_value s t (Nat.le_antisymm (hlen s t hs ht) (hlen t s ht hs))
    hs.2.1 ht.2.1 (by rw [hs.2.2.2, ht.2.2.2])

/-! ## Column addition of decimal strings -/

theorem decimal_value_rev_lt : ∀ (s : List Char), (∀ x ∈ s, is_digit x = true) →
    decimal_value_rev s < 10 ^ s.length := by
  intro s h
  have := decimal_value_lt s.reverse (by simpa using h)
  rwa [decimal_value_reverse, List.length_reverse] at this

theorem sum_strs_loop_spec : ∀ (xs ys : List Char) (carry : Bool), ys.length ≤ xs.length →
    (∀ x ∈ xs, is_digit x = true) → (∀ y ∈ ys, is_digit y = true) →
    ∃ zs, sum_strs_loop xs ys carry = .ok zs ∧ (∀ z ∈ zs, is_digit z = true) ∧
      decimal_value_rev zs = decimal_value_rev xs + decimal_value_rev ys + carry.toNat ∧
      zs.length = xs.length +
        (if 10 ^ xs.length ≤ decimal_value_rev xs + decimal_value_rev ys + carry.toNat
          then 1 else 0) := by
  intro xs
  induction xs with
  | nil =>
    intro ys carry h _ _
    have : ys = [] := List.length_eq_zero.mp (Nat.le_zero.mp h)
    subst this
    cases carry
    · exact ⟨[], rfl, by simp, by simp [decimal_value_rev], by simp [decimal_value_rev]⟩
    · refine ⟨['1'], rfl, ?_, by simp [decimal_value_rev], by simp [decimal_value_rev]⟩
      intro z hz
      simp at hz
      rw [hz]
      rfl
  | cons x xs ih =>
    intro ys carry h hxs hys
    have hxd := hxs x (List.mem_cons_self _ _)
    have hx := digit_toNat x hxd
    have hxs2 := fun z hz => hxs z (List.mem_cons_of_mem x hz)
    have hyd : is_digit (ys.headD '0') = true := by
      cases ys with
      | nil => rfl
      | cons y ys => exact hys y (List.mem_cons_self _ _)
    have hys2 : ∀ z ∈ ys.tail, is_digit z = true := fun z hz => hys z (List.mem_of_mem_tail hz)
    have hl : ys.tail.length ≤ xs.length := by
      cases ys with
      | nil => simp
      | cons y ys => simpa using h
    have hyv : decimal_value_rev ys = ((ys.headD '0').toNat - 48) +
        10 * decimal_value_rev ys.tail := by
      cases ys with
      | nil => simp [decimal_value_rev]
      | cons y ys => simp [decimal_value_rev]
    have hp : 0 < 10 ^ xs.length := Nat.pos_pow_of_pos _ (by norm_num)
    have hcn : (if carry = true then 1 else 0) = carry.toNat := by cases carry <;> rfl
    have hcle : carry.toNat ≤ 1 := by cases carry <;> simp
    rw [sum_strs_loop]
    simp only [char_to_int_spec x hxd, char_to_int_spec _ hyd, bind, Except.bind, hcn]
    rw [decimal_value_rev, hyv, List.length_cons, pow_succ]
    generalize ys.headD '0' = yc at hyd ⊢
    have hy := digit_toNat yc hyd
    by_cases hsum : x.toNat - 48 + (yc.toNat - 48) + carry.toNat ≥ 10
    · obtain ⟨o, ho, hon⟩ := dig_to_char_spec
        (x.toNat - 48 + (yc.toNat - 48) + carry.toNat - 10) (by omega)
      obtain ⟨zs, hzs, hzd, hzv, hzl⟩ := ih ys.tail true hl hxs2 hys2
      simp only [Bool.toNat_true] at hzv hzl
      refine ⟨o :: zs, ?_, ?_, ?_, ?_⟩
      · simp only [hsum, if_true, ho, hzs, pure, Except.pure]
      · intro z hz
        rcases List.mem_cons.mp hz with hz | hz
        · rw [hz]
          exact is_digit_of_toNat o (by omega) (by omega)
        · exact hzd z hz
      · rw [decimal_value_rev, hzv, hon]
        omega
      · rw [List.length_cons, hzl]
        split_ifs <;> omega
    · obtain ⟨o, ho, hon⟩ := dig_to_char_spec
        (x.toNat - 48 + (yc.toNat - 48) + carry.toNat) (by omega)
      obtain ⟨zs, hzs, hzd, hzv, hzl⟩ := ih ys.tail false hl hxs2 hys2
      simp only [Bool.toNat_false, add_zero] at hzv hzl
      refine ⟨o :: zs, ?_, ?_, ?_, ?_⟩
      · simp only [hsum, if_false, ho, hzs, pure, Except.pure]
      · intro z hz
        rcases List.mem_cons.mp hz with hz | hz
        · rw [hz]
          exact is_digit_of_toNat o (by omega) (by omega)
        · exact hzd z hz
      · rw [decimal_value_rev, hzv, hon]
        omega
      · rw [List.length_cons, hzl]
        split_ifs <;> omega

theorem sum_loop_numeral (l s : List Char) (vl vs : Nat) (hl : is_numeral l vl)
    (hs : is_numeral s vs) (hlen : s.length ≤ l.length) :
    ∃ zs, sum_strs_loop l.reverse s.reverse false = .ok zs ∧
      is_numeral zs.reverse (vl + vs) := by
  obtain ⟨zs, hzs, hzd, hzv, hzl⟩ := sum_strs_loop_spec l.reverse s.reverse false
    (by simpa using hlen) (by simpa using hl.2.1) (by simpa using hs.2.1)
  simp only [← decimal_value_eq_rev, hl.2.2.2, hs.2.2.2, Bool.toNat_false, add_zero,
    List.length_reverse] at hzv hzl
  have hl1 : 1 ≤ l.length := by
    cases l with
    | nil => exact absurd rfl hl.1
    | cons c cs => simp
  refine ⟨zs, hzs, numeral_of_bounds zs.reverse (vl + vs) ?_ (by simpa using hzd)
    (by rw [decimal_value_reverse, hzv]) ?_⟩
  · intro h0
    have : zs.length = 0 := by simpa using congrArg List.length h0
    omega
  · rw [List.length_reverse, hzl]
    intro h2
    split_ifs at h2 ⊢ with hc
    · simpa using hc
    · have := numeral_ge l vl hl (by omega)
      simp only [add_zero]
      omega

theorem sum_strs_numeral (a b : List Char) (va vb : Nat) (ha : is_numeral a va)
    (hb : is_numeral b vb) : ∃ c, sum_strs a b = .ok c ∧ is_numeral c (va + vb) := by
  unfold sum_strs
  by_cases h : a.length > b.length
  · obtain ⟨zs, hzs, hnum⟩ := sum_loop_numeral a b va vb ha hb (by omega)
    exact ⟨zs.reverse, by simp [h, hzs, bind, Except.bind, pure, Except.pure], hnum⟩
  · obtain ⟨zs, hzs, hnum⟩ := sum_loop_numeral b a vb va hb ha (by omega)
    rw [Nat.add_comm] at hnum
    exact ⟨zs.reverse, by simp [h, hzs, bind, Except.bind, pure, Except.pure], hnum⟩

theorem repeat_sum_strs_numeral (addend : List Char) (k : Nat) (hk : is_numeral addend k) :
    ∀ (count : Nat) (result : List Char) (n : Nat), is_numeral result n →
    ∃ r, repeat_sum_strs addend count result = .ok r ∧ is_numeral r (n + count * k) := by
  intro count
  induction count with
  | zero =>
    intro result n hr
    exact ⟨result, rfl, by simpa using hr⟩
  | succ count ih =>
    intro result n hr
    obtain ⟨r1, hr1, hn1⟩ := sum_strs_numeral result addend n k hr hk
    obtain ⟨r2, hr2, hn2⟩ := ih r1 (n + k) hn1
    refine ⟨r2, ?_, ?_⟩
    · rw [repeat_sum_strs]
      simp only [hr1, bind, Except.bind, hr2]
    · have : n + (count + 1) * k = n + k + count * k := by ring
      rw [this]
      exact hn2

/-! ## The native accumulator -/

theorem wrap_int64_of_lt (x : ℤ) (h0 : 0 ≤ x) (h1 : x < 2 ^ 63) : wrap_int64 x = x := by
  unfold wrap_int64
  rw [Int.emod_eq_of_lt (by omega) (by omega)]
  omega

theorem int64_t_pow_2_rec_eq : ∀ (n : Nat), n ≤ 62 → int64_t_pow_2_rec n = 2 ^ n := by
  intro n
  induction n with
  | zero => intro _; rfl
  | succ n ih =>
    intro h
    have hpow : (2 : ℤ) ^ (n + 1) < 2 ^ 63 := by
      apply pow_lt_pow_right₀ (by norm_num)
      omega
    rw [int64_t_pow_2_rec, ih (by omega), wrap_int64_of_lt]
    · rw [pow_succ]
      ring
    · positivity
    · rw [pow_succ] at hpow
      linarith

theorem int64_t_pow_2_eq (n : Nat) (h : n ≤ 62) : int64_t_pow_2 (n : ℤ) = 2 ^ n := by
  unfold int64_t_pow_2
  rw [Int.toNat_ofNat]
  exact int64_t_pow_2_rec_eq n h

theorem to_string_natCast (n : Nat) : to_string (n : ℤ) = Nat.toDigits 10 n := by
  unfold to_string
  rw [if_neg (by omega), Int.toNat_ofNat]

/-! ## Magnitude to decimal string -/

theorem to_unsigned_pow (k : Nat) (h : k ≤ 31) : to_unsigned ((2 : ℤ) ^ k) = 2 ^ k := by
  unfold to_unsigned
  have h1 : (2 : ℤ) ^ k < 2 ^ 32 := pow_lt_pow_right₀ (by norm_num) (by omega)
  have h0 : (0 : ℤ) ≤ 2 ^ k := by positivity
  rw [Int.emod_eq_of_lt h0 h1]
  have : ((2 : ℤ) ^ k) = ((2 ^ k : ℕ) : ℤ) := by push_cast; rfl
  rw [this, Int.toNat_ofNat]

theorem bin_to_string_step_low (r : List Char) (a : Nat) (dep bit : Bool) (sig : Nat)
    (hsig : sig ≤ 62) (ha : a < 2 ^ sig) :
    bin_to_string_step { result := r, accu := (a : ℤ), deposited := dep } bit sig =
      .ok { result := r, accu := ((a + bit.toNat * 2 ^ sig : ℕ) : ℤ), deposited := dep } := by
  unfold bin_to_string_step
  simp only [Nat.reduceMul, Nat.reduceSub, hsig, if_true]
  cases bit
  · simp
  · simp only [if_true, Bool.toNat_true, one_mul]
    rw [int64_t_pow_2_eq sig hsig, wrap_int64_of_lt]
    · push_cast
      rfl
    · positivity
    · have h1 : (2 : ℤ) ^ sig ≤ 2 ^ 62 := pow_le_pow_right₀ (by norm_num) hsig
      have h2 : (a : ℤ) < 2 ^ sig := by exact_mod_cast ha
      have h3 : (2 : ℤ) ^ 63 = 2 * 2 ^ 62 := by norm_num
      linarith

theorem bin_to_string_step_deposit (r : List Char) (accu : ℤ) (bit : Bool) (sig : Nat)
    (hsig : 62 < sig) :
    bin_to_string_step { result := r, accu := accu, deposited := false } bit sig =
      bin_to_string_step { result := to_string accu, accu := accu, deposited := true } bit sig := by
  unfold bin_to_string_step
  have h : ¬ sig ≤ 62 := by omega
  simp only [Nat.reduceMul, Nat.reduceSub, h, if_false]
  rfl

theorem bin_to_string_step_high (r : List Char) (n : Nat) (accu : ℤ) (bit : Bool) (sig : Nat)
    (hsig : 62 < sig) (hr : is_numeral r n) (hbit : bit = true → sig ≤ 93) :
    ∃ r1, bin_to_string_step { result := r, accu := accu, deposited := true } bit sig =
        .ok { result := r1, accu := accu, deposited := true } ∧
      is_numeral r1 (n + bit.toNat * 2 ^ sig) := by
  unfold bin_to_string_step
  have h : ¬ sig ≤ 62 := by omega
  simp only [Nat.reduceMul, Nat.reduceSub, h, if_false]
  cases bit
  · exact ⟨r, by simp, by simpa using hr⟩
  · have h93 := hbit rfl
    have hK : is_numeral (to_string (int64_t_pow_2 ((62 : ℕ) : ℤ))) (2 ^ 62) := by
      rw [int64_t_pow_2_eq 62 (le_refl _)]
      have : ((2 : ℤ) ^ 62) = ((2 ^ 62 : ℕ) : ℤ) := by norm_num
      rw [this, to_string_natCast]
      exact toDigits_numeral _
    have hcount : to_unsigned (int64_t_pow_2 ((sig : ℤ) - ((62 : ℕ) : ℤ))) = 2 ^ (sig - 62) := by
      have : (sig : ℤ) - ((62 : ℕ) : ℤ) = ((sig - 62 : ℕ) : ℤ) := by omega
      rw [this, int64_t_pow_2_eq _ (by omega), to_unsigned_pow _ (by omega)]
    obtain ⟨r1, hr1, hn1⟩ := repeat_sum_strs_numeral _ _ hK (2 ^ (sig - 62)) r n hr
    refine ⟨r1, ?_, ?_⟩
    · simp only [Bool.not_true, Bool.false_eq_true, if_false, if_true, hcount, hr1, bind,
        Except.bind, pure, Except.pure]
    · have : 2 ^ (sig - 62) * 2 ^ 62 = 2 ^ sig := by
        rw [← pow_add]
        congr 1
        omega
      rw [this] at hn1
      simpa using hn1

theorem bin_to_string_loop_low : ∀ (bits : List Bool) (sig a : Nat) (r : List Char),
    a < 2 ^ sig → sig + bits.length ≤ 63 →
    bin_to_string_loop bits sig { result := r, accu := (a : ℤ), deposited := false } =
      .ok { result := r, accu := ((a + 2 ^ sig * value_rev bits : ℕ) : ℤ), deposited := false } := by
  intro bits
  induction bits with
  | nil => intro sig a r _ _; simp [bin_to_string_loop, value_rev]
  | cons bit rest ih =>
    intro sig a r ha hlen
    have hlen2 : sig + rest.length + 1 ≤ 63 := by simpa [Nat.add_assoc] using hlen
    rw [bin_to_string_loop, bin_to_string_step_low r a false bit sig (by omega) ha]
    simp only [bind, Except.bind]
    rw [ih (sig + 1) (a + bit.toNat * 2 ^ sig) r
      (by rw [pow_succ]; cases bit <;> simp <;> omega) (by omega)]
    congr 3
    rw [value_rev, pow_succ]
    ring

theorem bin_to_string_loop_high : ∀ (bits : List Bool) (sig n : Nat) (r : List Char) (accu : ℤ),
    62 < sig → is_numeral r n → 2 ^ sig * value_rev bits < 2 ^ 94 →
    ∃ r1, bin_to_string_loop bits sig { result := r, accu := accu, deposited := true } =
        .ok { result := r1, accu := accu, deposited := true } ∧
      is_numeral r1 (n + 2 ^ sig * value_rev bits) := by
  intro bits
  induction bits with
  | nil =>
    intro sig n r accu _ hr _
    exact ⟨r, rfl, by simpa [value_rev] using hr⟩
  | cons bit rest ih =>
    intro sig n r accu hsig hr hbound
    rw [value_rev, Nat.mul_add] at hbound
    have hbit : bit = true → sig ≤ 93 := by
      intro hb
      subst hb
      by_contra hgt
      have : 2 ^ 94 ≤ 2 ^ sig := Nat.pow_le_pow_right (by norm_num) (by omega)
      simp at hbound
      omega
    obtain ⟨r1, hr1, hn1⟩ := bin_to_string_step_high r n accu bit sig hsig hr hbit
    have hrest : 2 ^ (sig + 1) * value_rev rest < 2 ^ 94 := by
      rw [pow_succ, Nat.mul_assoc]
      omega
    obtain ⟨r2, hr2, hn2⟩ := ih (sig + 1) _ r1 accu (by omega) hn1 hrest
    refine ⟨r2, ?_, ?_⟩
    · rw [bin_to_string_loop, hr1]
      simp only [bind, Except.bind]
      exact hr2
    · have : n + 2 ^ sig * value_rev (bit :: rest) =
          n + bit.toNat * 2 ^ sig + 2 ^ (sig + 1) * value_rev rest := by
        rw [value_rev, pow_succ]
        ring
      rw [this]
      exact hn2

theorem bin_to_string_loop_append : ∀ (xs ys : List Bool) (sig : Nat) (st : BinToStringState),
    bin_to_string_loop (xs ++ ys) sig st =
      (bin_to_string_loop xs sig st).bind (fun st1 => bin_to_string_loop ys (sig + xs.length) st1) := by
  intro xs
  induction xs with
  | nil => intro ys sig st; simp [bin_to_string_loop, Except.bind]
  | cons x xs ih =>
    intro ys sig st
    rw [List.cons_append, bin_to_string_loop, bin_to_string_loop]
    simp only [bind]
    cases bin_to_string_step st x sig with
    | error e => rfl
    | ok st1 =>
      simp only [Except.bind]
      rw [ih ys (sig + 1) st1, List.length_cons]
      congr 2
      funext st2
      congr 1
      omega

theorem bin_to_string_spec (a_bools : List Bool) (h : value a_bools < 2 ^ 94) :
    bin_to_string a_bools = .ok (Nat.toDigits 10 (value a_bools)) := by
  have hsplit := List.take_append_drop 63 a_bools.reverse
  have hv : value a_bools = value_rev (a_bools.reverse.take 63) +
      2 ^ (a_bools.reverse.take 63).length * value_rev (a_bools.reverse.drop 63) := by
    rw [value_eq_value_rev, ← value_rev_append, hsplit]
  have hlow := bin_to_string_loop_low (a_bools.reverse.take 63) 0 0 [] (by simp)
    (by simp)
  simp only [pow_zero, one_mul, zero_add, Nat.cast_zero] at hlow
  unfold bin_to_string
  rw [← hsplit, bin_to_string_loop_append, hlow]
  simp only [Except.bind, zero_add]
  cases hhi : a_bools.reverse.drop 63 with
  | nil =>
    rw [hhi] at hv
    simp only [value_rev, mul_zero, add_zero] at hv
    simp only [bin_to_string_loop, bind, Except.bind, Bool.not_false, if_true, pure, Except.pure]
    rw [to_string_natCast, hv]
  | cons bit rest =>
    have hlen : (a_bools.reverse.take 63).length = 63 := by
      have : 63 < a_bools.reverse.length := by
        by_contra hle
        have : a_bools.reverse.drop 63 = [] := List.drop_of_length_le (by omega)
        rw [this] at hhi
        exact absurd hhi (by simp)
      simp
      simp at this
      omega
    rw [hhi, hlen] at hv
    have hbound : 2 ^ 63 * value_rev (bit :: rest) < 2 ^ 94 := by omega
    rw [value_rev, Nat.mul_add] at hbound
    have hbit : bit = true → 63 ≤ 93 := fun _ => by norm_num
    obtain ⟨r1, hr1, hn1⟩ := bin_to_string_step_high
      (to_string ((value_rev (a_bools.reverse.take 63) : ℕ) : ℤ))
      (value_rev (a_bools.reverse.take 63)) _ bit 63 (by norm_num)
      (by rw [to_string_natCast]; exact toDigits_numeral _) hbit
    have hrest : 2 ^ (63 + 1) * value_rev rest < 2 ^ 94 := by
      rw [pow_succ, Nat.mul_assoc]
      omega
    obtain ⟨r2, hr2, hn2⟩ := bin_to_string_loop_high rest (63 + 1) _ r1
      ((value_rev (a_bools.reverse.take 63) : ℕ) : ℤ) (by norm_num) hn1 hrest
    rw [hlen, bin_to_string_loop, bin_to_string_step_deposit _ _ _ _ (by norm_num), hr1]
    simp only [bind, Except.bind, hr2, Bool.not_true, Bool.false_eq_true, if_false, pure,
      Except.pure]
    congr 1
    apply numeral_unique _ _ (value a_bools) _ (toDigits_numeral _)
    have : value a_bools = value_rev (a_bools.reverse.take 63) + bit.toNat * 2 ^ 63 +
        2 ^ (63 + 1) * value_rev rest := by
      rw [hv, value_rev, pow_succ]
      ring
    rw [this]
    exact hn2

/-! ## The claims -/

set_option maxRecDepth 100000

/-- C1: the decimal round trip breaks at the numeral of `2^94`: the
constructor stores the bit `1` followed by 94 zero bits, and `to_str` of that
value is `0`, because the repetition count `2^32` of the bit of significance
94 is cast to a 32-bit unsigned integer, which gives no repetition at all. -/
theorem C1_round_trip_fails_at_two_pow_94 :
    Int.ofString 200 "19807040628566084398385987584".toList =
        some (.ok { is_positive := true, bools := true :: List.replicate 94 false }) ∧
      Int.to_str { is_positive := true, bools := true :: List.replicate 94 false } =
        .ok "0".toList := by
  decide

/-- C2: on a decimal string (an optional `-` and at least one digit) the
constructor returns, for every budget of at least four passes per character,
a value whose sign flag is cleared exactly by a leading `-` and whose
magnitude is the binary representation of the denoted number: it has that
value, starts with the bit `1` when the number is not zero and is the single
bit `0` when it is zero; `to_str_bools` of the value is the binary numeral of
the denoted integer. -/
theorem C2_decimal_to_binary (s : List Char) (hs : is_decimal s = true) (fuel : Nat)
    (hfuel : 4 * s.length ≤ fuel) :
    ∃ a : Int, Int.ofString fuel s = some (.ok a) ∧
      a.is_positive = decide (s.head? ≠ some '-') ∧
      a.bools = to_bits (decimal_value (digits_of s)) ∧
      value a.bools = decimal_value (digits_of s) ∧
      (decimal_value (digits_of s) ≠ 0 → a.bools.head? = some true) ∧
      (decimal_value (digits_of s) = 0 → a.bools = [false]) ∧
      a.to_str_bools = binary_numeral (decimal_int s) := by
  have hdig : ∀ x ∈ digits_of s, is_digit x = true := by
    simp only [is_decimal, Bool.and_eq_true, List.all_eq_true] at hs
    exact hs.2
  have hlen : (digits_of s).length ≤ s.length := by
    unfold digits_of
    split
    · simp
    · exact le_rfl
  have hsize := size_decimal_value_le (digits_of s) hdig
  refine ⟨{ is_positive := decide (s.head? ≠ some '-'),
            bools := to_bits (decimal_value (digits_of s)) },
    ?_, rfl, rfl, value_to_bits _, to_bits_head _, ?_, ?_⟩
  · rw [ofString_decimal s hs fuel, if_pos (by omega)]
  · intro h0
    rw [h0]
    rfl
  · rw [to_str_bools_to_bits]
    unfold decimal_int
    by_cases hm : s.head? = some '-' <;> simp [hm]

/-- C2, at the string `-6`. -/
theorem C2_decimal_to_binary_witness :
    is_decimal "-6".toList = true ∧ 4 * "-6".toList.length ≤ 8 ∧
      ∃ a : Int, Int.ofString 8 "-6".toList = some (.ok a) ∧
        a.is_positive = decide ("-6".toList.head? ≠ some '-') ∧
        a.bools = to_bits (decimal_value (digits_of "-6".toList)) ∧
        value a.bools = decimal_value (digits_of "-6".toList) ∧
        (decimal_value (digits_of "-6".toList) ≠ 0 → a.bools.head? = some true) ∧
        (decimal_value (digits_of "-6".toList) = 0 → a.bools = [false]) ∧
        a.to_str_bools = binary_numeral (decimal_int "-6".toList) :=
  ⟨by decide, by decide, C2_decimal_to_binary "-6".toList (by decide) 8 (by decide)⟩

/-- C3: for values `a` and `b` that the constructor returns on decimal
strings, `a + b` and `a - b` return values that denote the sum and the
difference of the denoted integers; with equal sign flags the magnitudes are
added and the flag is kept, with different sign flags the smaller magnitude
is subtracted from the larger one and the flag is that of the operand with
the larger magnitude. -/
theorem C3_signed_add_sub (a b : Int) (ha : FromDecimal a) (hb : FromDecimal b) :
    (∃ c, Int.add a b = .ok c ∧ c.toInt = a.toInt + b.toInt ∧
      (a.is_positive = b.is_positive →
        value c.bools = value a.bools + value b.bools ∧ c.is_positive = a.is_positive) ∧
      (a.is_positive ≠ b.is_positive →
        (value b.bools < value a.bools →
          value c.bools = value a.bools - value b.bools ∧ c.is_positive = a.is_positive) ∧
        (value a.bools < value b.bools →
          value c.bools = value b.bools - value a.bools ∧ c.is_positive = b.is_positive))) ∧
    (∃ d, Int.sub a b = .ok d ∧ d.toInt = a.toInt - b.toInt) := by
  have hca := canonical_of_FromDecimal a ha
  have hcb := canonical_of_FromDecimal b hb
  refine ⟨add_canonical a b hca hcb, ?_⟩
  obtain ⟨d, hd, hval, _⟩ :=
    add_canonical a { b with is_positive := !b.is_positive } hca hcb
  refine ⟨d, hd, ?_⟩
  rw [hval]
  cases hp : b.is_positive <;> simp [Int.toInt, hp]
  all_goals omega

/-- C3, at the values of `5` and `-3`. -/
theorem C3_signed_add_sub_witness :
    FromDecimal { is_positive := true, bools := [true, false, true] } ∧
      FromDecimal { is_positive := false, bools := [true, true] } ∧
      (∃ c, Int.add { is_positive := true, bools := [true, false, true] }
          { is_positive := false, bools := [true, true] } = .ok c ∧ c.toInt = 2) ∧
      (∃ d, Int.sub { is_positive := true, bools := [true, false, true] }
          { is_positive := false, bools := [true, true] } = .ok d ∧ d.toInt = 8) := by
  have ha : FromDecimal { is_positive := true, bools := [true, false, true] } :=
    ⟨"5".toList, 8, by decide, by decide⟩
  have hb : FromDecimal { is_positive := false, bools := [true, true] } :=
    ⟨"-3".toList, 8, by decide, by decide⟩
  obtain ⟨⟨c, hc, hcv, _⟩, ⟨d, hd, hdv⟩⟩ := C3_signed_add_sub _ _ ha hb
  refine ⟨ha, hb, ⟨c, hc, ?_⟩, ⟨d, hd, ?_⟩⟩
  · rw [hcv]; decide
  · rw [hdv]; decide

/-- C4: addition does not treat leading zero bits as non-significant:
`Int("8") + Int("-7")` has the magnitude `0001`, and adding `Int("-2")` to it
returns the positive value with magnitude `1111`, which denotes `15`, not
`-1`. -/
theorem C4_leading_zeros_break_addition :
    Int.ofString 8 "8".toList = some (.ok { is_positive := true, bools := [true, false, false, false] }) ∧
      Int.ofString 8 "-7".toList = some (.ok { is_positive := false, bools := [true, true, true] }) ∧
      Int.ofString 8 "-2".toList = some (.ok { is_positive := false, bools := [true, false] }) ∧
      Int.add { is_positive := true, bools := [true, false, false, false] }
          { is_positive := false, bools := [true, true, true] } =
        .ok { is_positive := true, bools := [false, false, false, true] } ∧
      Int.add { is_positive := true, bools := [false, false, false, true] }
          { is_positive := false, bools := [true, false] } =
        .ok { is_positive := true, bools := [true, true, true, true] } ∧
      Int.toInt { is_positive := true, bools := [true, true, true, true] } = 15 := by
  decide

/-- C5: for all operands, the magnitude of the product denotes the product of
the denoted magnitudes, and the sign flag of the product is set exactly when
the sign flags of the operands are equal. -/
theorem C5_mul_exact (a b : Int) :
    value (Int.mul a b).bools = value a.bools * value b.bools ∧
      ((Int.mul a b).is_positive = true ↔ a.is_positive = b.is_positive) := by
  refine ⟨mul_bool_vectors_value a.bools b.bools, ?_⟩
  simp [Int.mul]

/-- C6: `Int("3") / Int("8")` fails with `out_of_range` instead of returning
a zero quotient: after the test that the divisor is the bigger vector the
function does not return, and the length difference wraps around. -/
theorem C6_div_smaller_by_larger_throws :
    Int.ofString 8 "3".toList = some (.ok { is_positive := true, bools := [true, true] }) ∧
      Int.ofString 8 "8".toList =
        some (.ok { is_positive := true, bools := [true, false, false, false] }) ∧
      Int.div { is_positive := true, bools := [true, true] }
          { is_positive := true, bools := [true, false, false, false] } =
        .error .out_of_range := by
  decide

/-- C7: a divisor whose magnitude has no set bit makes `div_bool_vectors_bare`
and `operator/` fail with `domain_error`, for every dividend and whatever the
vectors passed by reference contain. -/
theorem C7_div_by_zero_fails (a z : Int) (hz : is_zero_vector z.bools = true) :
    Int.div a z = .error .domain_error ∧
      ∀ result rem : List Bool,
        div_bool_vectors_bare a.bools z.bools result rem = .error .domain_error := by
  have hbare : ∀ result rem : List Bool,
      div_bool_vectors_bare a.bools z.bools result rem = .error .domain_error := by
    intro result rem
    simp [div_bool_vectors_bare, hz]
  refine ⟨?_, hbare⟩
  simp [Int.div, div_bool_vectors, hbare, bind, Except.bind]

/-- C7, at the dividend `0` and a negative zero divisor of two bits. -/
theorem C7_div_by_zero_fails_witness :
    is_zero_vector [false, false] = true ∧
      Int.div { is_positive := true, bools := [false] }
          { is_positive := false, bools := [false, false] } = .error .domain_error ∧
      ∀ result rem : List Bool,
        div_bool_vectors_bare [false] [false, false] result rem = .error .domain_error :=
  ⟨by decide, C7_div_by_zero_fails { is_positive := true, bools := [false] }
    { is_positive := false, bools := [false, false] } (by decide)⟩

/-- C8: with a divisor that is not zero and exceeds the dividend,
`div_bool_vectors_bare` does not yield the empty quotient: for the dividend
`11` and the divisor `1000` it fails with `out_of_range`, and for the dividend
`01` and the divisor `10` the quotient is the single bit `0`. -/
theorem C8_larger_divisor_quotient_not_empty :
    (is_the_first_bigger [true, true] [true, false, false, false] = false ∧
        [true, true] ≠ [true, false, false, false] ∧
        is_zero_vector [true, false, false, false] = false ∧
        div_bool_vectors_bare [true, true] [true, false, false, false] [] [] =
          .error .out_of_range) ∧
      (is_the_first_bigger [false, true] [true, false] = false ∧
        [false, true] ≠ [true, false] ∧
        is_zero_vector [true, false] = false ∧
        div_bool_vectors_bare [false, true] [true, false] [] [] =
          .ok ([false], [false, true])) := by
  decide

/-- C9: `operator==` compares the stored bits: the sum `Int("8") + Int("-7")`,
stored as `0001`, and the quotient `Int("4") / Int("3")`, stored as `01`, are
both different from `Int("1")`, stored as `1`. -/
theorem C9_eq_compares_raw_bits :
    Int.ofString 8 "1".toList = some (.ok { is_positive := true, bools := [true] }) ∧
      Int.add { is_positive := true, bools := [true, false, false, false] }
          { is_positive := false, bools := [true, true, true] } =
        .ok { is_positive := true, bools := [false, false, false, true] } ∧
      Int.eq { is_positive := true, bools := [false, false, false, true] }
          { is_positive := true, bools := [true] } = false ∧
      Int.ofString 8 "4".toList = some (.ok { is_positive := true, bools := [true, false, false] }) ∧
      Int.ofString 8 "3".toList = some (.ok { is_positive := true, bools := [true, true] }) ∧
      Int.div { is_positive := true, bools := [true, false, false] }
          { is_positive := true, bools := [true, true] } =
        .ok { is_positive := true, bools := [false, true] } ∧
      Int.eq { is_positive := true, bools := [false, true] }
          { is_positive := true, bools := [true] } = false := by
  decide

/-- C10: `operator>` and `operator<` hold between `Int("90")` and itself. -/
theorem C10_gt_holds_on_equal_operands :
    Int.ofString 8 "90".toList =
        some (.ok { is_positive := true, bools := [true, false, true, true, false, true, false] }) ∧
      Int.gt { is_positive := true, bools := [true, false, true, true, false, true, false] }
          { is_positive := true, bools := [true, false, true, true, false, true, false] } = true ∧
      Int.lt { is_positive := true, bools := [true, false, true, true, false, true, false] }
          { is_positive := true, bools := [true, false, true, true, false, true, false] } = true := by
  decide

/-- C11: `operator>` does not invert the comparison for negative operands:
`Int("-3") > Int("-5")` is false and `Int("-5") > Int("-3")` is true. -/
theorem C11_negative_order_not_inverted :
    Int.ofString 8 "-3".toList = some (.ok { is_positive := false, bools := [true, true] }) ∧
      Int.ofString 8 "-5".toList =
        some (.ok { is_positive := false, bools := [true, false, true] }) ∧
      Int.gt { is_positive := false, bools := [true, true] }
          { is_positive := false, bools := [true, false, true] } = false ∧
      Int.gt { is_positive := false, bools := [true, false, true] }
          { is_positive := false, bools := [true, true] } = true := by
  decide

/-- C12: for all operands `a + b` and `b + a` return values that `operator==`
accepts as equal; when the magnitudes are the same bit sequence and the sign
flags differ, the two sums carry different sign flags. -/
theorem C12_add_commutes (a b : Int) :
    ∃ c d, Int.add a b = .ok c ∧ Int.add b a = .ok d ∧ Int.eq c d = true ∧
      (a.bools = b.bools → a.is_positive ≠ b.is_positive → c.is_positive ≠ d.is_positive) := by
  obtain ⟨c, d, hc, hd, he⟩ := add_comm_eq a b
  refine ⟨c, d, hc, hd, he, ?_⟩
  intro hx hs
  obtain ⟨pa, xa⟩ := a
  obtain ⟨pb, xb⟩ := b
  simp only at hx hs
  subst hx
  have hs2 : ¬ pb = pa := fun h => hs h.symm
  simp only [Int.add, ne_eq, hs, hs2, not_false_eq_true, if_true, sub_bool_vectors_zero,
    is_the_first_bigger_self, bind, Except.bind, pure, Except.pure, Bool.false_eq_true,
    if_false, Except.ok.injEq] at hc hd
  rw [← hc, ← hd]
  exact hs2

/-- C13: multiplication does not commute under `operator==` on values with
leading zero bits: with `a = Int("8") + Int("-7")`, stored as `0001`, and
`b = Int("3")`, the product `a * b` is stored as `00011` and `b * a` as `11`,
and `operator==` answers false. -/
theorem C13_mul_not_commutative_under_eq :
    Int.add { is_positive := true, bools := [true, false, false, false] }
        { is_positive := false, bools := [true, true, true] } =
        .ok { is_positive := true, bools := [false, false, false, true] } ∧
      Int.ofString 8 "3".toList = some (.ok { is_positive := true, bools := [true, true] }) ∧
      Int.mul { is_positive := true, bools := [false, false, false, true] }
          { is_positive := true, bools := [true, true] } =
        { is_positive := true, bools := [false, false, false, true, true] } ∧
      Int.mul { is_positive := true, bools := [true, true] }
          { is_positive := true, bools := [false, false, false, true] } =
        { is_positive := true, bools := [true, true] } ∧
      Int.eq { is_positive := true, bools := [false, false, false, true, true] }
          { is_positive := true, bools := [true, true] } = false := by
  decide

/-- C14: for every `a` the sum `a + (-a)` is returned, its magnitude has no
set bit, and `operator==` accepts it as equal to `Int("0")`. -/
theorem C14_additive_inverse (a : Int) :
    ∃ c, Int.add a (Int.neg a) = .ok c ∧ is_zero_vector c.bools = true ∧
      ∀ fuel : Nat, ∃ zero, Int.ofString fuel "0".toList = some (.ok zero) ∧
        Int.eq c zero = true := by
  obtain ⟨pa, xa⟩ := a
  refine ⟨⟨!pa, (sub_loop xa.reverse xa.reverse false).reverse⟩, ?_, ?_, ?_⟩
  · cases pa <;>
      simp [Int.add, Int.neg, sub_bool_vectors_zero, is_the_first_bigger_self, bind, Except.bind,
        pure, Except.pure]
  · simp [is_zero_vector_reverse, sub_loop_self]
  · intro fuel
    refine ⟨_, ofString_zero fuel, ?_⟩
    apply Int.eq_of_zero
    · simp [is_zero_vector_reverse, sub_loop_self]
    · rfl

/-- C15: for every `a` and every `z` whose magnitude has no set bit, the
products `a * z` and `z * a` are accepted by `operator==` as equal to
`Int("0")`, and `to_str` of both products is `0`. -/
theorem C15_zero_absorption (a z : Int) (hz : is_zero_vector z.bools = true) :
    (∀ fuel : Nat, ∃ zero, Int.ofString fuel "0".toList = some (.ok zero) ∧
        Int.eq (Int.mul a z) zero = true ∧ Int.eq (Int.mul z a) zero = true) ∧
      Int.to_str (Int.mul a z) = .ok "0".toList ∧
      Int.to_str (Int.mul z a) = .ok "0".toList := by
  obtain ⟨h1, h2⟩ := mul_zero_vector a z hz
  refine ⟨fun fuel => ⟨_, ofString_zero fuel, ?_, ?_⟩, to_str_of_zero _ h1, to_str_of_zero _ h2⟩
  · exact Int.eq_of_zero _ _ h1 rfl
  · exact Int.eq_of_zero _ _ h2 rfl

/-- C15, at `a = 5` and a negative zero of three bits. -/
theorem C15_zero_absorption_witness :
    is_zero_vector [false, false, false] = true ∧
      ((∀ fuel : Nat, ∃ zero, Int.ofString fuel "0".toList = some (.ok zero) ∧
          Int.eq (Int.mul { is_positive := true, bools := [true, false, true] }
            { is_positive := false, bools := [false, false, false] }) zero = true ∧
          Int.eq (Int.mul { is_positive := false, bools := [false, false, false] }
            { is_positive := true, bools := [true, false, true] }) zero = true) ∧
        Int.to_str (Int.mul { is_positive := true, bools := [true, false, true] }
          { is_positive := false, bools := [false, false, false] }) = .ok "0".toList ∧
        Int.to_str (Int.mul { is_positive := false, bools := [false, false, false] }
          { is_positive := true, bools := [true, false, true] }) = .ok "0".toList) :=
  ⟨by decide, C15_zero_absorption { is_positive := true, bools := [true, false, true] }
    { is_positive := false, bools := [false, false, false] } (by decide)⟩

/-- C16, as stated, fails: no budget makes the constructor return for `-0` a
value whose sign flag is set. -/
theorem C16_negative_zero_not_normalised :
    ¬ ∃ (fuel : Nat) (a : Int),
        Int.ofString fuel "-0".toList = some (.ok a) ∧ a.is_positive = true := by
  rintro ⟨fuel, a, h, hp⟩
  have h0 := ofString_negative_zero 0 fuel
  have h1 : Int.ofString fuel "-0".toList =
      some (.ok { is_positive := false, bools := [false] }) := h0
  rw [h1] at h
  injection h with h
  injection h with h
  rw [← h] at hp
  exact absurd hp (by decide)

/-- C16, amended: for `-` followed by one or more zeros the constructor
returns, for every budget, the single-bit zero magnitude with the sign flag
cleared; `to_str` of that value is `0`. -/
theorem C16_negative_zero (n fuel : Nat) :
    Int.ofString fuel ('-' :: List.replicate (n + 1) '0') =
        some (.ok { is_positive := false, bools := [false] }) ∧
      Int.to_str { is_positive := false, bools := [false] } = .ok "0".toList :=
  ⟨ofString_negative_zero n fuel, rfl⟩

/-- C17: `to_str_bools` is `0` when the magnitude has no set bit; otherwise it
is `-` exactly when the sign flag is cleared, followed by the characters of
the bits from the first set bit to the end. Zero bits put in front of the
magnitude do not change it, and it is `0` or starts with `1` or with `-1`. -/
theorem C17_to_str_bools_canonical (a : Int) :
    (a.to_str_bools =
        if is_zero_vector a.bools then ['0']
        else (if a.is_positive then [] else ['-']) ++
          (a.bools.dropWhile (fun b => !b)).map bit_char) ∧
      (∀ n : Nat,
        Int.to_str_bools
          { is_positive := a.is_positive, bools := List.replicate n false ++ a.bools } =
          a.to_str_bools) ∧
      (a.to_str_bools = ['0'] ∨ ∃ rest, a.to_str_bools = '1' :: rest ∨
        a.to_str_bools = '-' :: '1' :: rest) := by
  refine ⟨to_str_bools_eq a, ?_, ?_⟩
  · intro n
    rw [to_str_bools_eq, to_str_bools_eq a]
    simp only [is_zero_vector_prepend, dropWhile_prepend]
  · rw [to_str_bools_eq]
    cases hz : is_zero_vector a.bools
    · obtain ⟨rest, hrest⟩ := dropWhile_of_not_zero a.bools hz
      right
      refine ⟨rest.map bit_char, ?_⟩
      rw [hrest]
      cases a.is_positive <;> simp [bit_char]
    · left
      simp

/-- C18: `operator=` leaves its target as it was: after `a = b` with
`a = Int("1")` and `b = Int("2")` the target still holds the magnitude `1`
and `operator==` answers false for the target and `b`; the copy of `b` is
only the value returned. -/
theorem C18_assignment_leaves_target :
    Int.ofString 8 "1".toList = some (.ok { is_positive := true, bools := [true] }) ∧
      Int.ofString 8 "2".toList = some (.ok { is_positive := true, bools := [true, false] }) ∧
      (Int.assign { is_positive := true, bools := [true] }
          { is_positive := true, bools := [true, false] }).1 =
        { is_positive := true, bools := [true] } ∧
      Int.eq (Int.assign { is_positive := true, bools := [true] }
          { is_positive := true, bools := [true, false] }).1
          { is_positive := true, bools := [true, false] } = false ∧
      (Int.assign { is_positive := true, bools := [true] }
          { is_positive := true, bools := [true, false] }).2 =
        { is_positive := true, bools := [true, false] } := by
  decide

/-- C19: on the string made of `1` and a null character no budget makes the
constructor return, neither a value nor an error: every pass stops at the
null character, which is never erased. -/
theorem C19_null_character_never_returns :
    ¬ ∃ (fuel : Nat) (r : Except Error Int),
        Int.ofString fuel ['1', Char.ofNat 0] = some r := by
  rintro ⟨fuel, r, h⟩
  rw [ofString_one_null] at h
  exact absurd h (by simp)

/-- C20: the offset error escapes the facade: `Int("3") / Int("9")`, whose
divisor is not zero, fails with `out_of_range`. -/
theorem C20_offset_error_escapes :
    Int.ofString 8 "3".toList = some (.ok { is_positive := true, bools := [true, true] }) ∧
      Int.ofString 8 "9".toList =
        some (.ok { is_positive := true, bools := [true, false, false, true] }) ∧
      is_zero_vector [true, false, false, true] = false ∧
      Int.div { is_positive := true, bools := [true, true] }
          { is_positive := true, bools := [true, false, false, true] } =
        .error .out_of_range := by
  decide

/-- C21: for all bit sequences the sum returned by `add_bool_vectors` denotes
the sum of the denoted numbers, and its length is the larger of the two
lengths, plus one exactly when the sum does not fit into that many bits. -/
theorem C21_add_bool_vectors_exact (x y : List Bool) :
    value (add_bool_vectors x y) = value x + value y ∧
      (add_bool_vectors x y).length =
        max x.length y.length +
          (if 2 ^ max x.length y.length ≤ value x + value y then 1 else 0) :=
  ⟨add_bool_vectors_value x y, add_bool_vectors_length x y⟩

/-- C22: when the divisor starts with the bit `1` and is not longer than the
dividend (whose size fits `size_t`), `div_bool_vectors_bare`, called with an
empty quotient vector as `div_bool_vectors` does, returns a quotient `q` and a
remainder `r` with `value d = value q * value v + value r`,
`value r < value v`, `q` of length `len d - len v + 1` and `r` of the length
of `d`. -/
theorem C22_long_division (d v rem : List Bool) (hhead : v.head? = some true)
    (hlen : v.length ≤ d.length) (hsize : d.length < 2 ^ 64) :
    ∃ q r, div_bool_vectors_bare d v [] rem = .ok (q, r) ∧
      value d = value q * value v + value r ∧ value r < value v ∧
      q.length = d.length - v.length + 1 ∧ r.length = d.length :=
  div_bool_vectors_bare_spec d v rem hhead hlen hsize

/-- C22, at the dividend `1101` and the divisor `11`. -/
theorem C22_long_division_witness :
    [true, true].head? = some true ∧ [true, true].length ≤ [true, true, false, true].length ∧
      [true, true, false, true].length < 2 ^ 64 ∧
      ∃ q r, div_bool_vectors_bare [true, true, false, true] [true, true] [] [] = .ok (q, r) ∧
        value [true, true, false, true] = value q * value [true, true] + value r ∧
        value r < value [true, true] ∧
        q.length = [true, true, false, true].length - [true, true].length + 1 ∧
        r.length = [true, true, false, true].length :=
  ⟨by decide, by decide, by decide,
    C22_long_division [true, true, false, true] [true, true] [] (by decide) (by decide)
      (by decide)⟩

/-- C23: when `x` has at least `len y + k` bits and denotes at least
`value y * 2^k`, `sub_bool_vectors x y k` returns a sequence of the length of
`x` that denotes `value x - value y * 2^k`, and whose last `k` bits are those
of `x`. -/
theorem C23_offset_subtraction (x y : List Bool) (k : Nat) (hlen : y.length + k ≤ x.length)
    (hval : value y * 2 ^ k ≤ value x) :
    ∃ r, sub_bool_vectors x y k = .ok r ∧ r.length = x.length ∧
      value r = value x - value y * 2 ^ k ∧ r.reverse.take k = x.reverse.take k := by
  obtain ⟨r, hr, hl, hv, ht⟩ := sub_bool_vectors_offset x y k hlen hval
  exact ⟨r, hr, hl, by omega, ht⟩

/-- C23, at `x = 1011`, `y = 1` and the offset `2`. -/
theorem C23_offset_subtraction_witness :
    [true].length + 2 ≤ [true, false, true, true].length ∧
      value [true] * 2 ^ 2 ≤ value [true, false, true, true] ∧
      ∃ r, sub_bool_vectors [true, false, true, true] [true] 2 = .ok r ∧
        r.length = [true, false, true, true].length ∧
        value r = value [true, false, true, true] - value [true] * 2 ^ 2 ∧
        r.reverse.take 2 = [true, false, true, true].reverse.take 2 :=
  ⟨by decide, by decide,
    C23_offset_subtraction [true, false, true, true] [true] 2 (by decide) (by decide)⟩

/-- C24: for every bit sequence that denotes a number below `2^94`,
`bin_to_string` returns the decimal numeral of that number: the digits of
`Nat.toDigits 10`, which denote the number and have no leading zero (`0` for
zero). -/
theorem C24_bin_to_string_below_two_pow_94 (a_bools : List Bool)
    (h : value a_bools < 2 ^ 94) :
    bin_to_string a_bools = .ok (Nat.toDigits 10 (value a_bools)) ∧
      is_numeral (Nat.toDigits 10 (value a_bools)) (value a_bools) :=
  ⟨bin_to_string_spec a_bools h, toDigits_numeral _⟩

/-- C24, at the bit sequence `0101`. -/
theorem C24_bin_to_string_below_two_pow_94_witness :
    value [false, true, false, true] < 2 ^ 94 ∧
      bin_to_string [false, true, false, true] =
        .ok (Nat.toDigits 10 (value [false, true, false, true])) ∧
      is_numeral (Nat.toDigits 10 (value [false, true, false, true]))
        (value [false, true, false, true]) :=
  ⟨by decide, C24_bin_to_string_below_two_pow_94 [false, true, false, true] (by decide)⟩

end Bigint
